import Mathlib

/-!
# Verification of the fastest-N content-acquisition subsystem

Shallow embedding of the core of `app/services/craw4ai_pool.py`
(`CrawlerPool.crawl_fastest` and its helpers) and of the TTL+LRU catalog
cache in `app/services/recommendation.py`
(`RecommendationService.get_category_products` and its helpers),
together with theorems settling the specification claims about them.

Modelling conventions:
* Python strings are Lean `String`s; `len` on a string is `String.length`
  (number of characters), `str.split()` is splitting on whitespace runs.
* Python `int` counts that can go negative (the `count` argument of
  `crawl_fastest`) are `Int`; word counts are `Nat`.
* The MD5 hex digest used as a cache key is deterministic and treated as
  collision-free (spec §3 "ResourceHash ... deterministic,
  collision-improbable"), so cache entries are keyed directly by URL.
* The cooperative-concurrency race of `_crawl_urls` is modelled by an
  explicit completion order: the race processes live completions in the
  order given by a list that is a permutation of the URLs being crawled.
  `asyncio` runs each `await`ed callback to completion atomically, so this
  sequential model covers every interleaving of the completion events.
* Exceptions that the Python code catches locally (cache read failures,
  per-task crawl errors) are modelled as explicit outcome values
  (`Option`, `LiveOutcome.err`); the translation of a `try/except` body is
  therefore a total function.
-/

/-- The number used as the word count of a cached entry
(`craw4ai_pool.py` line 315: `word_count = len(cache_data["markdown"])`):
the character length of the stored markdown string. -/
def cachedWordCount (markdown : String) : Nat :=
  markdown.length

/-- Token counter underlying Python `str.split()`: counts maximal runs of
non-whitespace characters.  The boolean says whether we are currently
inside a token: a non-whitespace character only opens a new token when we
were not already inside one. -/
def tokCountIn : Bool → List Char → Nat
  | _, [] => 0
  | inTok, c :: cs =>
    if c.isWhitespace then tokCountIn false cs
    else (if inTok then 0 else 1) + tokCountIn true cs

/-- The number used as the word count of a live fetch
(`craw4ai_pool.py` line 443: `word_count = len(markdown_content.split())`):
the number of whitespace-separated tokens of the markdown string. -/
def liveWordCount (markdown : String) : Nat :=
  tokCountIn false markdown.data

theorem tokCountIn_le_length (l : List Char) : ∀ b, tokCountIn b l ≤ l.length := by
  induction l with
  | nil => intro b; simp [tokCountIn]
  | cons c cs ih =>
    intro b
    simp only [tokCountIn, List.length_cons]
    by_cases hw : c.isWhitespace
    · simp [hw]; exact Nat.le_succ_of_le (ih false)
    · simp [hw]
      cases b <;> simp
      · have := ih true; omega
      · exact Nat.le_succ_of_le (ih true)

/-! ## Data model of the crawler subsystem -/

/-- Outcome of awaiting one live crawl task (`task.result()` in
`_crawl_urls`): either the task raised (`err`, caught and logged at line
466) or it returned a result object with a `success` flag and an optional
markdown payload (`none` models a result whose `markdown` attribute is
missing or falsy; `some m` models `result.markdown.raw_markdown = m`). -/
inductive LiveOutcome where
  | err : LiveOutcome
  | res (success : Bool) (markdown : Option String) : LiveOutcome
deriving DecidableEq

/-- The environment a `crawl_fastest` call runs against.

`cached url`:
* `none` — no cache entry for the URL (its filename is not in
  `cache_files_map`);
* `some none` — the filename is in `cache_files_map` but reading or
  parsing the file fails (including a missing `markdown` field);
* `some (some md)` — the cache entry loads with markdown `md`.

`live url` is the outcome a live crawl of the URL completes with. -/
structure Env where
  cached : String → Option (Option String)
  live : String → LiveOutcome

/-- `cache_filename in self.cache_files_map` for the URL's hash. -/
def hasCacheFile (env : Env) (url : String) : Bool :=
  (env.cached url).isSome

/-- The duck-typed result object flowing through `crawl_fastest`:
`{url, success, markdown (raw markdown string if present), word_count,
from_cache}`. -/
structure FetchResult where
  url : String
  success : Bool
  markdown : Option String
  word_count : Nat
  from_cache : Bool
deriving DecidableEq

/-- Writes performed against the on-disk content cache during one call:
`files` is the per-hash JSON file contents (markdown payloads) written by
`_cache_result`, `index` the filenames added to `cache_files_map` by
`add_to_cache_map`.  Keys are URLs (the MD5 keying is injective, see the
module docstring). -/
structure CacheSt where
  files : List (String × String)
  index : List String
deriving DecidableEq

def emptyCacheSt : CacheSt := ⟨[], []⟩

/-- Association-list lookup (first binding wins), the model of Python
`dict` lookup. -/
def lookupA {α : Type} : List (String × α) → String → Option α
  | [], _ => none
  | (k, v) :: rest, key => if k = key then some v else lookupA rest key

/-- Association-list insert with Python `dict` assignment semantics:
overwrite in place if the key is bound, else append. -/
def insertA {α : Type} : List (String × α) → String → α → List (String × α)
  | [], key, v => [(key, v)]
  | (k, w) :: rest, key, v =>
    if k = key then (k, v) :: rest else (k, w) :: insertA rest key v

def containsKey {α : Type} (l : List (String × α)) (key : String) : Bool :=
  (lookupA l key).isSome

/-- `_cache_result` (lines 488-521): write the JSON file for the URL, then
add the filename to the in-memory map. -/
def storeResult (c : CacheSt) (url markdown : String) : CacheSt :=
  { files := insertA c.files url markdown
    index := if url ∈ c.index then c.index else c.index ++ [url] }

/-- Python `list(dict.fromkeys(...))` effect of building
`url_hash_map = {url: ... for url in urls}` (line 232): keys keep their
first-occurrence order, duplicates collapse. -/
def pyDedup (l : List String) : List String :=
  go [] l
where
  go (seen : List String) : List String → List String
    | [] => []
    | x :: xs => if x ∈ seen then go seen xs else x :: go (x :: seen) xs

/-- Python slicing `l[:c]` for an `int` bound `c` (`valid_results[:count]`,
`all_results[:count]`): a negative bound drops `-c` elements from the
end. -/
def pyTake {α : Type} (c : Int) (l : List α) : List α :=
  if 0 ≤ c then l.take c.toNat else l.take (l.length - (-c).toNat)

/-- `_process_cached_url` (lines 270-323): returns the cached result
object and its word count, or `(none, 0)` when the entry is absent or
fails to load (every exception is caught at line 321). -/
def processCachedUrlRes (env : Env) (url : String) : Option FetchResult × Nat :=
  match env.cached url with
  | some (some md) =>
    (some ⟨url, true, some md, cachedWordCount md, true⟩, cachedWordCount md)
  | _ => (none, 0)

/-- Accumulator of the cached phase `_process_cached_urls`: the
`valid_results` and `all_results` lists (shared with `crawl_fastest`) and
the `urls_to_crawl` list. -/
structure CPhase where
  valid : List FetchResult
  all : List FetchResult
  toCrawl : List String
deriving DecidableEq

/-- Body of the `for url, task in batch_tasks` loop (lines 367-382) for a
single URL.  The boolean reports whether a valid result was appended
(the only case in which the early-`break` test at line 375 runs). -/
def procUrl (env : Env) (minWc : Nat) (st : CPhase) (url : String) : CPhase × Bool :=
  match processCachedUrlRes env url with
  | (some r, wc) =>
    if minWc ≤ wc then
      ({ st with all := st.all ++ [r], valid := st.valid ++ [r] }, true)
    else
      ({ st with all := st.all ++ [r] }, false)
  | (none, _) => ({ st with toCrawl := st.toCrawl ++ [url] }, false)

/-- One batch of the cached phase.  Returns the state and whether the
inner `break` (line 377, taken when a just-appended valid result brings
`len(valid_results) >= count`) fired. -/
def procBatch (env : Env) (minWc : Nat) (count : Int) (st : CPhase) :
    List String → CPhase × Bool
  | [] => (st, false)
  | u :: rest =>
    let step := procUrl env minWc st u
    if step.2 ∧ (step.1.valid.length : Int) ≥ count then (step.1, true)
    else procBatch env minWc count step.1 rest

/-- The batch loop of `_process_cached_urls` (lines 356-386): process
batches in order; stop after a batch if the inner break fired or
`len(valid_results) >= count` (line 385). -/
def procBatches (env : Env) (minWc : Nat) (count : Int) (st : CPhase) :
    List (List String) → CPhase
  | [] => st
  | b :: bs =>
    let step := procBatch env minWc count st b
    if step.2 then step.1
    else if (step.1.valid.length : Int) ≥ count then step.1
    else procBatches env minWc count step.1 bs

/-- Fuel-driven worker for `chunks10`; the fuel is an upper bound on the
list length, so the `0, _ :: _` case is never reached from `chunks10`. -/
def chunks10Go : Nat → List String → List (List String)
  | _, [] => []
  | 0, _ :: _ => []
  | fuel + 1, x :: xs => ((x :: xs).take 10) :: chunks10Go fuel ((x :: xs).drop 10)

/-- `batch_size = 10` chunking (lines 356-358). -/
def chunks10 (l : List String) : List (List String) :=
  chunks10Go l.length l

/-- `_process_cached_urls` (lines 325-388): deduplicate, partition into
cached/uncached (misses go straight to `urls_to_crawl`), then process the
cached URLs in batches of 10. -/
def processCachedUrls (env : Env) (urls : List String) (count : Int) (minWc : Nat) :
    CPhase :=
  let dd := pyDedup urls
  let misses := dd.filter (fun u => !(hasCacheFile env u))
  let withCache := dd.filter (fun u => hasCacheFile env u)
  procBatches env minWc count ⟨[], [], misses⟩ (chunks10 withCache)

/-- Result of the race phase `_crawl_urls`: its local `valid_results` and
`all_results` plus the cache writes performed. -/
structure RaceOut where
  valid : List FetchResult
  all : List FetchResult
  cache : CacheSt
deriving DecidableEq

/-- Word count of a live completion (lines 437-446): token count of the
markdown when present, `0` otherwise. -/
def liveWcOpt : Option String → Nat
  | none => 0
  | some m => liveWordCount m

/-- `_crawl_urls` (lines 390-486) over an explicit completion order.
Processing stops once `needed` valid results accumulate (the `while`
guard at line 424 and the breaks at lines 463-470); remaining tasks are
cancelled and drained without touching the collections.  Every processed
completion with a truthy markdown payload is written to the cache at line
450 before classification; a task that raised contributes nothing (caught
at line 465). -/
def raceLoop (env : Env) (minWc : Nat) : List String → Int → CacheSt → RaceOut
  | [], _, cache => ⟨[], [], cache⟩
  | url :: rest, needed, cache =>
    if needed ≤ 0 then ⟨[], [], cache⟩
    else
      match env.live url with
      | .err => raceLoop env minWc rest needed cache
      | .res s md =>
        let wc := liveWcOpt md
        let cache1 :=
          match md with
          | some m => if m = "" then cache else storeResult cache url m
          | none => cache
        let r : FetchResult := ⟨url, s, md, wc, false⟩
        if minWc ≤ wc then
          let out := raceLoop env minWc rest (needed - 1) cache1
          ⟨r :: out.valid, r :: out.all, out.cache⟩
        else
          let out := raceLoop env minWc rest needed cache1
          ⟨out.valid, r :: out.all, out.cache⟩

/-- Insert a result into an accumulator already sorted by descending
`word_count`, after every element of greater-or-equal word count.  This
is the per-element effect of a stable descending sort. -/
def insSorted (r : FetchResult) : List FetchResult → List FetchResult
  | [] => [r]
  | y :: ys => if r.word_count ≤ y.word_count then y :: insSorted r ys else r :: y :: ys

/-- `all_results.sort(key=lambda x: getattr(x, 'word_count', 0),
reverse=True)` (lines 242, 260): stable sort by descending word count
(every result in `all_results` has its `word_count` attribute set). -/
def sortDesc (l : List FetchResult) : List FetchResult :=
  l.foldl (fun acc r => insSorted r acc) []

/-- Observable outcome of one `crawl_fastest` call: the returned result
list, the cache writes performed, and the URLs for which live crawl tasks
were created (`raced = []` iff the race phase never started). -/
structure CrawlOut where
  results : List FetchResult
  cache : CacheSt
  raced : List String
deriving DecidableEq

/-- `crawl_fastest` (lines 210-268).  `order` is the completion order of
the live crawl tasks (a permutation of `urls_to_crawl`; see the module
docstring). -/
def crawl_fastest (env : Env) (urls : List String) (count : Int) (minWc : Nat)
    (order : List String) : CrawlOut :=
  let p := processCachedUrls env urls count minWc
  if (p.valid.length : Int) ≥ count ∨ p.toCrawl = [] then
    if (p.valid.length : Int) ≥ count then
      ⟨pyTake count p.valid, emptyCacheSt, []⟩
    else
      ⟨pyTake count (sortDesc p.all), emptyCacheSt, []⟩
  else
    let needed : Int := count - p.valid.length
    let r := raceLoop env minWc order needed emptyCacheSt
    let valid2 := p.valid ++ r.valid
    let all2 := p.all ++ r.all
    if (valid2.length : Int) ≥ count then
      ⟨pyTake count valid2, r.cache, p.toCrawl⟩
    else
      ⟨pyTake count (sortDesc all2), r.cache, p.toCrawl⟩

/-! ## Derived predicates used in claim statements -/

/-- The valid cached result for a URL, if its cache entry loads and meets
the threshold. -/
def cachedValidRes (env : Env) (minWc : Nat) (u : String) : Option FetchResult :=
  match env.cached u with
  | some (some md) =>
    if minWc ≤ cachedWordCount md then some ⟨u, true, some md, cachedWordCount md, true⟩
    else none
  | _ => none

/-- The cached result for a URL whose cache entry loads (any word count). -/
def cachedHitRes (env : Env) (u : String) : Option FetchResult :=
  match env.cached u with
  | some (some md) => some ⟨u, true, some md, cachedWordCount md, true⟩
  | _ => none

/-- `true` iff processing the URL in the cached phase falls through to
`urls_to_crawl` (no cache entry, or the entry fails to load). -/
def cacheFailB (env : Env) (u : String) : Bool :=
  match env.cached u with
  | some (some _) => false
  | _ => true

/-- The result object a live crawl of the URL would contribute (`none`
when the task raises and is swallowed at line 465). -/
def liveRes (env : Env) (u : String) : Option FetchResult :=
  match env.live u with
  | .err => none
  | .res s md => some ⟨u, s, md, liveWcOpt md, false⟩

/-- `true` iff a live crawl of the URL completes with word count at least
the threshold. -/
def liveValidB (env : Env) (minWc : Nat) (u : String) : Bool :=
  match env.live u with
  | .err => false
  | .res _ md => decide (minWc ≤ liveWcOpt md)

/-- `true` iff fetching the URL — from cache if its entry loads, live
otherwise — yields a result whose word count meets the threshold. -/
def urlYieldsValidB (env : Env) (minWc : Nat) (u : String) : Bool :=
  match env.cached u with
  | some (some md) => decide (minWc ≤ cachedWordCount md)
  | _ => liveValidB env minWc u

/-- `true` iff fetching the URL yields any result object at all (a cache
hit, or a live completion that does not raise). -/
def resultfulB (env : Env) (u : String) : Bool :=
  match env.cached u with
  | some (some _) => true
  | _ => (liveRes env u).isSome

/-- Number of distinct URLs whose cache entry loads and meets the
threshold. -/
def cachedValidCount (env : Env) (minWc : Nat) (urls : List String) : Nat :=
  ((pyDedup urls).filterMap (cachedValidRes env minWc)).length

/-- Number of distinct URLs that yield a result object. -/
def resultfulCount (env : Env) (urls : List String) : Nat :=
  (pyDedup urls).countP (resultfulB env)

/-- Results sorted by descending word count. -/
def DescByWc (l : List FetchResult) : Prop :=
  l.Pairwise (fun a b => b.word_count ≤ a.word_count)

/-! ## Basic lemmas -/

theorem chunks10Go_flatten (fuel : Nat) :
    ∀ l : List String, l.length ≤ fuel → (chunks10Go fuel l).flatten = l := by
  induction fuel with
  | zero => intro l h; cases l with
    | nil => simp [chunks10Go]
    | cons x xs => simp at h
  | succ n ih =>
    intro l h
    cases l with
    | nil => simp [chunks10Go]
    | cons x xs =>
      simp only [chunks10Go, List.flatten_cons]
      rw [ih ((x :: xs).drop 10) (by simp at h ⊢; omega)]
      exact List.take_append_drop 10 (x :: xs)

theorem chunks10_flatten (l : List String) : (chunks10 l).flatten = l :=
  chunks10Go_flatten l.length l le_rfl

theorem pyTake_natCast (k : Nat) (l : List α) : pyTake (k : Int) l = l.take k := by
  simp [pyTake]

theorem pyTake_nonpos {c : Int} (hc : c ≤ 0) {l : List α} (hl : l.length ≤ 1) :
    pyTake c l = [] := by
  unfold pyTake
  rcases lt_or_eq_of_le hc with h | h
  · rw [if_neg (by omega)]
    have : l.length - (-c).toNat = 0 := by omega
    simp [this]
  · subst h; simp

theorem insSorted_length (r : FetchResult) (l : List FetchResult) :
    (insSorted r l).length = l.length + 1 := by
  induction l with
  | nil => rfl
  | cons y ys ih =>
    unfold insSorted
    by_cases h : r.word_count ≤ y.word_count <;> simp [h, ih]

theorem sortDesc_length (l : List FetchResult) : (sortDesc l).length = l.length := by
  suffices h : ∀ acc : List FetchResult,
      (l.foldl (fun acc r => insSorted r acc) acc).length = acc.length + l.length by
    simpa using h []
  induction l with
  | nil => intro acc; simp
  | cons x xs ih =>
    intro acc
    simp only [List.foldl_cons, ih, insSorted_length, List.length_cons]
    omega

theorem insSorted_mem {x r : FetchResult} {l : List FetchResult} :
    x ∈ insSorted r l ↔ x = r ∨ x ∈ l := by
  induction l with
  | nil => simp [insSorted]
  | cons y ys ih =>
    unfold insSorted
    by_cases h : r.word_count ≤ y.word_count <;> simp [h, ih] <;> tauto

theorem insSorted_pairwise {r : FetchResult} {l : List FetchResult}
    (hl : DescByWc l) : DescByWc (insSorted r l) := by
  induction l with
  | nil => simp [insSorted, DescByWc]
  | cons y ys ih =>
    have hl0 := hl
    rw [DescByWc, List.pairwise_cons] at hl
    unfold insSorted
    by_cases h : r.word_count ≤ y.word_count
    · rw [if_pos h]
      rw [DescByWc, List.pairwise_cons]
      refine ⟨?_, ih hl.2⟩
      intro z hz
      rcases insSorted_mem.mp hz with rfl | hz'
      · exact h
      · exact hl.1 z hz'
    · rw [if_neg h]
      rw [DescByWc, List.pairwise_cons]
      refine ⟨?_, hl0⟩
      intro z hz
      rcases List.mem_cons.mp hz with rfl | hz'
      · omega
      · have := hl.1 z hz'; omega

theorem sortDesc_pairwise (l : List FetchResult) : DescByWc (sortDesc l) := by
  suffices h : ∀ acc : List FetchResult, DescByWc acc →
      DescByWc (l.foldl (fun acc r => insSorted r acc) acc) by
    exact h [] (by simp [DescByWc])
  induction l with
  | nil => intro acc hacc; simpa using hacc
  | cons x xs ih =>
    intro acc hacc
    exact ih _ (insSorted_pairwise hacc)

theorem pyTake_pairwise {c : Int} {l : List FetchResult} (h : DescByWc l) :
    DescByWc (pyTake c l) := by
  unfold pyTake
  split <;> exact List.Pairwise.sublist (List.take_sublist _ _) h

theorem sortDesc_mem {x : FetchResult} {l : List FetchResult} :
    x ∈ sortDesc l ↔ x ∈ l := by
  suffices h : ∀ acc : List FetchResult,
      (x ∈ l.foldl (fun acc r => insSorted r acc) acc ↔ x ∈ acc ∨ x ∈ l) by
    rw [sortDesc, h []]; simp
  induction l with
  | nil => intro acc; simp
  | cons y ys ih =>
    intro acc
    simp only [List.foldl_cons, ih (insSorted y acc), insSorted_mem, List.mem_cons]
    tauto

theorem lookupA_insertA_self {α : Type} (l : List (String × α)) (k : String) (v : α) :
    lookupA (insertA l k v) k = some v := by
  induction l with
  | nil => simp [insertA, lookupA]
  | cons p rest ih =>
    obtain ⟨k', w⟩ := p
    unfold insertA
    by_cases h : k' = k <;> simp [lookupA, h, ih]

theorem lookupA_insertA_ne {α : Type} (l : List (String × α)) {k k' : String}
    (h : k' ≠ k) (v : α) : lookupA (insertA l k v) k' = lookupA l k' := by
  induction l with
  | nil =>
    simp only [insertA, lookupA]
    rw [if_neg (Ne.symm h)]
  | cons p rest ih =>
    obtain ⟨k0, w⟩ := p
    by_cases hk : k0 = k
    · subst hk
      simp only [insertA, if_pos rfl, lookupA]
      rw [if_neg, if_neg]
      · exact Ne.symm h
      · exact Ne.symm h
    · simp only [insertA, if_neg hk, lookupA]
      by_cases hk' : k0 = k' <;> simp [hk', ih]

/-! ## Cached-phase lemmas -/

/-- The cached phase with the early-break tests removed: process every URL
of the list in order. -/
def procFlat (env : Env) (minWc : Nat) (st : CPhase) : List String → CPhase
  | [] => st
  | u :: rest => procFlat env minWc (procUrl env minWc st u).1 rest

theorem procUrl_char (env : Env) (minWc : Nat) (st : CPhase) (u : String) :
    procUrl env minWc st u =
      (⟨st.valid ++ (cachedValidRes env minWc u).toList,
        st.all ++ (cachedHitRes env u).toList,
        st.toCrawl ++ (if cacheFailB env u then [u] else [])⟩,
       (cachedValidRes env minWc u).isSome) := by
  unfold procUrl processCachedUrlRes cachedValidRes cachedHitRes cacheFailB
  cases h : env.cached u with
  | none => simp
  | some o =>
    cases o with
    | none => simp
    | some md => by_cases hm : minWc ≤ cachedWordCount md <;> simp [hm]

theorem procFlat_char (env : Env) (minWc : Nat) :
    ∀ (l : List String) (st : CPhase),
      procFlat env minWc st l =
        ⟨st.valid ++ l.filterMap (cachedValidRes env minWc),
         st.all ++ l.filterMap (cachedHitRes env),
         st.toCrawl ++ l.filter (cacheFailB env)⟩ := by
  intro l
  induction l with
  | nil => intro st; simp [procFlat]
  | cons u rest ih =>
    intro st
    rw [procFlat, procUrl_char, ih]
    cases hv : cachedValidRes env minWc u <;>
      cases hh : cachedHitRes env u <;>
        by_cases hf : cacheFailB env u <;>
          simp [hv, hh, hf, List.filterMap_cons, List.filter_cons]

theorem procFlat_append (env : Env) (minWc : Nat) :
    ∀ (l1 l2 : List String) (st : CPhase),
      procFlat env minWc st (l1 ++ l2) = procFlat env minWc (procFlat env minWc st l1) l2 := by
  intro l1
  induction l1 with
  | nil => intro l2 st; simp [procFlat]
  | cons u rest ih => intro l2 st; rw [List.cons_append, procFlat, procFlat, ih]

theorem cachedValidRes_mem_wc {env : Env} {minWc : Nat} {l : List String}
    {r : FetchResult} (h : r ∈ l.filterMap (cachedValidRes env minWc)) :
    minWc ≤ r.word_count ∧ r.from_cache = true ∧ r.success = true := by
  obtain ⟨u, _, hu⟩ := List.mem_filterMap.mp h
  cases hc : env.cached u with
  | none => simp [cachedValidRes, hc] at hu
  | some o =>
    cases o with
    | none => simp [cachedValidRes, hc] at hu
    | some md =>
      by_cases hm : minWc ≤ cachedWordCount md
      · have heq : cachedValidRes env minWc u
            = some ⟨u, true, some md, cachedWordCount md, true⟩ := by
          simp [cachedValidRes, hc, hm]
        rw [heq] at hu
        cases hu
        exact ⟨hm, rfl, rfl⟩
      · have heq : cachedValidRes env minWc u = none := by
          simp [cachedValidRes, hc, hm]
        rw [heq] at hu
        simp at hu

theorem procBatch_break (env : Env) (minWc : Nat) (count : Int) :
    ∀ (b : List String) (st st' : CPhase),
      procBatch env minWc count st b = (st', true) →
      (st'.valid.length : Int) ≥ count := by
  intro b
  induction b with
  | nil => intro st st' h; simp [procBatch] at h
  | cons u rest ih =>
    intro st st' h
    rw [procBatch] at h
    split at h
    · rename_i hcond
      cases h
      exact hcond.2
    · exact ih _ _ h

theorem procBatch_cons_none (env : Env) (minWc : Nat) (count : Int) (st : CPhase)
    (u : String) (rest : List String) (hv : cachedValidRes env minWc u = none) :
    procBatch env minWc count st (u :: rest)
      = procBatch env minWc count (procUrl env minWc st u).1 rest := by
  simp only [procBatch]
  rw [procUrl_char]
  simp [hv]

theorem cachedValidRes_some_facts {env : Env} {minWc : Nat} {u : String}
    {r : FetchResult} (hv : cachedValidRes env minWc u = some r) :
    cachedHitRes env u = some r ∧ cacheFailB env u = false ∧ minWc ≤ r.word_count := by
  cases hc : env.cached u with
  | none => simp [cachedValidRes, hc] at hv
  | some o =>
    cases o with
    | none => simp [cachedValidRes, hc] at hv
    | some md =>
      by_cases hm : minWc ≤ cachedWordCount md
      · have heq : cachedValidRes env minWc u
            = some ⟨u, true, some md, cachedWordCount md, true⟩ := by
          simp [cachedValidRes, hc, hm]
        rw [heq] at hv
        cases hv
        exact ⟨by simp [cachedHitRes, hc], by simp [cacheFailB, hc], hm⟩
      · have heq : cachedValidRes env minWc u = none := by
          simp [cachedValidRes, hc, hm]
        rw [heq] at hv
        simp at hv

theorem procBatch_cons_some (env : Env) (minWc : Nat) (count : Int) (st : CPhase)
    (u : String) (rest : List String) (r : FetchResult)
    (hv : cachedValidRes env minWc u = some r) :
    procBatch env minWc count st (u :: rest)
      = if ((st.valid.length : Int) + 1) ≥ count
        then ((⟨st.valid ++ [r], st.all ++ [r], st.toCrawl⟩ : CPhase), true)
        else procBatch env minWc count ⟨st.valid ++ [r], st.all ++ [r], st.toCrawl⟩ rest := by
  obtain ⟨hh, hf, _⟩ := cachedValidRes_some_facts hv
  simp only [procBatch]
  rw [procUrl_char, hv, hh, hf]
  simp [List.length_append]

theorem procUrl_none_fst (env : Env) (minWc : Nat) (st : CPhase) (u : String)
    (hv : cachedValidRes env minWc u = none) :
    (procUrl env minWc st u).1
      = ⟨st.valid, st.all ++ (cachedHitRes env u).toList,
         st.toCrawl ++ if cacheFailB env u then [u] else []⟩ := by
  rw [procUrl_char]
  simp [hv]

theorem procBatch_valid (env : Env) (minWc : Nat) (count : Int) :
    ∀ (b : List String) (st : CPhase), (st.valid.length : Int) < count →
      ((procBatch env minWc count st b).2 = true →
        (procBatch env minWc count st b).1.valid
            = (st.valid ++ b.filterMap (cachedValidRes env minWc)).take count.toNat
        ∧ ((procBatch env minWc count st b).1.valid.length : Int) = count)
      ∧ ((procBatch env minWc count st b).2 = false →
        (procBatch env minWc count st b).1 = procFlat env minWc st b
        ∧ ((procBatch env minWc count st b).1.valid.length : Int) < count) := by
  intro b
  induction b with
  | nil =>
    intro st h
    constructor
    · intro hb; simp [procBatch] at hb
    · intro _
      exact ⟨rfl, h⟩
  | cons u rest ih =>
    intro st h
    cases hv : cachedValidRes env minWc u with
    | none =>
      rw [procBatch_cons_none env minWc count st u rest hv]
      have hfst := procUrl_none_fst env minWc st u hv
      have hlen : (((procUrl env minWc st u).1.valid.length : Int)) < count := by
        rw [hfst]; exact h
      have ih' := ih _ hlen
      constructor
      · intro hb
        obtain ⟨h1, h2⟩ := ih'.1 hb
        refine ⟨?_, h2⟩
        rw [h1, hfst, List.filterMap_cons_none hv]
      · intro hb
        obtain ⟨h1, h2⟩ := ih'.2 hb
        exact ⟨by rw [h1, procFlat], h2⟩
    | some r =>
      rw [procBatch_cons_some env minWc count st u rest r hv]
      by_cases hc : ((st.valid.length : Int) + 1) ≥ count
      · rw [if_pos hc]
        constructor
        · intro _
          have hcnt : count.toNat = st.valid.length + 1 := by omega
          constructor
          · show st.valid ++ [r] = _
            have ht1 : List.take (st.valid.length + 1)
                (st.valid ++ r :: List.filterMap (cachedValidRes env minWc) rest)
                = st.valid ++ List.take 1 (r :: List.filterMap (cachedValidRes env minWc) rest) :=
              List.take_append 1
            rw [List.filterMap_cons_some hv, hcnt, ht1]
            simp
          · show ((st.valid ++ [r]).length : Int) = count
            simp
            omega
        · intro hb; simp at hb
      · rw [if_neg hc]
        have hlen : (((⟨st.valid ++ [r], st.all ++ [r], st.toCrawl⟩ : CPhase).valid.length : Int))
            < count := by
          simp
          omega
        have ih' := ih _ hlen
        constructor
        · intro hb
          obtain ⟨h1, h2⟩ := ih'.1 hb
          refine ⟨?_, h2⟩
          rw [h1, List.filterMap_cons_some hv, List.append_assoc, List.singleton_append]
        · intro hb
          obtain ⟨h1, h2⟩ := ih'.2 hb
          refine ⟨?_, h2⟩
          rw [h1, procFlat, procUrl_char]
          obtain ⟨hh, hf, _⟩ := cachedValidRes_some_facts hv
          rw [hv, hh, hf]
          simp

theorem procBatches_cons_broke (env : Env) (minWc : Nat) (count : Int)
    {st st1 : CPhase} {b : List String} (bs : List (List String))
    (hsb : procBatch env minWc count st b = (st1, true)) :
    procBatches env minWc count st (b :: bs) = st1 := by
  simp [procBatches, hsb]

theorem procBatches_cons_cont (env : Env) (minWc : Nat) (count : Int)
    {st st1 : CPhase} {b : List String} (bs : List (List String))
    (hsb : procBatch env minWc count st b = (st1, false))
    (hlt : (st1.valid.length : Int) < count) :
    procBatches env minWc count st (b :: bs) = procBatches env minWc count st1 bs := by
  simp only [procBatches, hsb]
  rw [if_neg (by simp), if_neg (not_le.mpr hlt)]

theorem procBatches_main (env : Env) (minWc : Nat) (count : Int) :
    ∀ (bs : List (List String)) (st : CPhase), (st.valid.length : Int) < count →
      (procBatches env minWc count st bs).valid
          = (st.valid ++ bs.flatten.filterMap (cachedValidRes env minWc)).take count.toNat
      ∧ (((procBatches env minWc count st bs).valid.length : Int) < count →
          procBatches env minWc count st bs = procFlat env minWc st bs.flatten) := by
  intro bs
  induction bs with
  | nil =>
    intro st h
    constructor
    · show st.valid = _
      rw [List.flatten_nil, List.filterMap_nil, List.append_nil,
        List.take_of_length_le (by omega)]
    · intro _; rfl
  | cons b bs ih =>
    intro st h
    rcases hsb : procBatch env minWc count st b with ⟨st1, brk⟩
    have hpv := procBatch_valid env minWc count b st h
    rw [hsb] at hpv
    dsimp only at hpv
    cases brk with
    | true =>
      obtain ⟨h1, h2⟩ := hpv.1 rfl
      rw [procBatches_cons_broke env minWc count bs hsb]
      have hle : count.toNat ≤ (st.valid ++ b.filterMap (cachedValidRes env minWc)).length := by
        have := congrArg List.length h1
        rw [List.length_take] at this
        omega
      constructor
      · rw [h1, List.flatten_cons, List.filterMap_append, ← List.append_assoc,
          List.take_append_of_le_length hle]
      · intro hlt
        omega
    | false =>
      obtain ⟨hfl, hlt⟩ := hpv.2 rfl
      rw [procBatches_cons_cont env minWc count bs hsb hlt]
      have ih' := ih st1 hlt
      constructor
      · rw [ih'.1, hfl, procFlat_char]
        show ((st.valid ++ _) ++ _).take _ = _
        rw [List.flatten_cons, List.filterMap_append, List.append_assoc]
      · intro hlen
        rw [ih'.2 hlen, hfl, List.flatten_cons, procFlat_append]

theorem procBatch_nonpos (env : Env) (minWc : Nat) (count : Int) (hc : count ≤ 0) :
    ∀ (b : List String) (st : CPhase),
      ((procBatch env minWc count st b).2 = true →
          (procBatch env minWc count st b).1.valid.length = st.valid.length + 1)
      ∧ ((procBatch env minWc count st b).2 = false →
          (procBatch env minWc count st b).1.valid = st.valid) := by
  intro b
  induction b with
  | nil => intro st; exact ⟨by simp [procBatch], fun _ => rfl⟩
  | cons u rest ih =>
    intro st
    cases hv : cachedValidRes env minWc u with
    | none =>
      rw [procBatch_cons_none env minWc count st u rest hv]
      have hfst := procUrl_none_fst env minWc st u hv
      have ihr := ih (procUrl env minWc st u).1
      constructor
      · intro hb; rw [ihr.1 hb, hfst]
      · intro hb; rw [ihr.2 hb, hfst]
    | some r =>
      rw [procBatch_cons_some env minWc count st u rest r hv]
      rw [if_pos (by omega)]
      exact ⟨fun _ => by simp, fun hb => by simp at hb⟩

theorem procBatches_nonpos (env : Env) (minWc : Nat) (count : Int) (hc : count ≤ 0) :
    ∀ (bs : List (List String)) (st : CPhase),
      (procBatches env minWc count st bs).valid.length ≤ st.valid.length + 1 := by
  intro bs
  cases bs with
  | nil => intro st; simp [procBatches]
  | cons b bs =>
    intro st
    rcases hsb : procBatch env minWc count st b with ⟨st1, brk⟩
    have hp := procBatch_nonpos env minWc count hc b st
    rw [hsb] at hp
    dsimp only at hp
    cases brk with
    | true =>
      rw [procBatches_cons_broke env minWc count bs hsb, hp.1 rfl]
    | false =>
      have heq : procBatches env minWc count st (b :: bs) = st1 := by
        simp only [procBatches, hsb]
        rw [if_neg (by simp), if_pos (by omega)]
      rw [heq, hp.2 rfl]
      omega

theorem filterMap_validRes_filter (env : Env) (minWc : Nat) (l : List String) :
    (l.filter (fun u => hasCacheFile env u)).filterMap (cachedValidRes env minWc)
      = l.filterMap (cachedValidRes env minWc) := by
  induction l with
  | nil => rfl
  | cons u rest ih =>
    cases hc : env.cached u with
    | none =>
      have h1 : hasCacheFile env u = false := by simp [hasCacheFile, hc]
      have h2 : cachedValidRes env minWc u = none := by simp [cachedValidRes, hc]
      simp [List.filter_cons, h1, List.filterMap_cons, h2, ih]
    | some o =>
      have h1 : hasCacheFile env u = true := by simp [hasCacheFile, hc]
      simp only [List.filter_cons, h1, if_pos trivial, List.filterMap_cons]
      cases hv : cachedValidRes env minWc u <;> simp [hv, ih]

theorem filterMap_hitRes_filter (env : Env) (l : List String) :
    (l.filter (fun u => hasCacheFile env u)).filterMap (cachedHitRes env)
      = l.filterMap (cachedHitRes env) := by
  induction l with
  | nil => rfl
  | cons u rest ih =>
    cases hc : env.cached u with
    | none =>
      have h1 : hasCacheFile env u = false := by simp [hasCacheFile, hc]
      have h2 : cachedHitRes env u = none := by simp [cachedHitRes, hc]
      simp [List.filter_cons, h1, List.filterMap_cons, h2, ih]
    | some o =>
      have h1 : hasCacheFile env u = true := by simp [hasCacheFile, hc]
      simp only [List.filter_cons, h1, if_pos trivial, List.filterMap_cons]
      cases hv : cachedHitRes env u <;> simp [hv, ih]

/-- The flat (no-early-stop) normal form of the cached phase. -/
theorem processCachedUrls_char (env : Env) (urls : List String) (count : Int)
    (minWc : Nat) (h1 : 1 ≤ count) :
    (processCachedUrls env urls count minWc).valid
        = ((pyDedup urls).filterMap (cachedValidRes env minWc)).take count.toNat
    ∧ (((processCachedUrls env urls count minWc).valid.length : Int) < count →
        processCachedUrls env urls count minWc
          = ⟨(pyDedup urls).filterMap (cachedValidRes env minWc),
             (pyDedup urls).filterMap (cachedHitRes env),
             (pyDedup urls).filter (fun u => !(hasCacheFile env u))
               ++ ((pyDedup urls).filter (fun u => hasCacheFile env u)).filter
                    (cacheFailB env)⟩) := by
  have hm := procBatches_main env minWc count
      (chunks10 ((pyDedup urls).filter (fun u => hasCacheFile env u)))
      ⟨[], [], (pyDedup urls).filter (fun u => !(hasCacheFile env u))⟩
      (by simp; omega)
  rw [chunks10_flatten] at hm
  constructor
  · have := hm.1
    rw [show (⟨[], [], (pyDedup urls).filter (fun u => !(hasCacheFile env u))⟩ : CPhase).valid
        = [] from rfl, List.nil_append, filterMap_validRes_filter] at this
    exact this
  · intro hlt
    have hfl := hm.2 hlt
    rw [processCachedUrls] at hlt ⊢
    rw [hfl, procFlat_char]
    simp only [List.nil_append]
    rw [filterMap_validRes_filter, filterMap_hitRes_filter]

/-- With a non-positive requested count, the cached phase collects at most
one valid result (the first valid append breaks out of both loops). -/
theorem processCachedUrls_nonpos (env : Env) (urls : List String) (count : Int)
    (minWc : Nat) (hc : count ≤ 0) :
    (processCachedUrls env urls count minWc).valid.length ≤ 1 := by
  have := procBatches_nonpos env minWc count hc
      (chunks10 ((pyDedup urls).filter (fun u => hasCacheFile env u)))
      ⟨[], [], (pyDedup urls).filter (fun u => !(hasCacheFile env u))⟩
  simpa [processCachedUrls] using this

/-! ## Race-phase lemmas -/

theorem raceLoop_valid_wc (env : Env) (minWc : Nat) :
    ∀ (order : List String) (needed : Int) (cache : CacheSt) (r : FetchResult),
      r ∈ (raceLoop env minWc order needed cache).valid → minWc ≤ r.word_count := by
  intro order
  induction order with
  | nil => intro needed cache r h; simp [raceLoop] at h
  | cons u rest ih =>
    intro needed cache r h
    rw [raceLoop] at h
    by_cases hn : needed ≤ 0
    · rw [if_pos hn] at h; simp at h
    · rw [if_neg hn] at h
      cases hl : env.live u with
      | err => rw [hl] at h; exact ih _ _ _ h
      | res s md =>
        rw [hl] at h
        dsimp only at h
        by_cases hwc : minWc ≤ liveWcOpt md
        · rw [if_pos hwc] at h
          rcases List.mem_cons.mp h with rfl | h'
          · exact hwc
          · exact ih _ _ _ h'
        · rw [if_neg hwc] at h
          exact ih _ _ _ h

theorem raceLoop_valid_length (env : Env) (minWc : Nat) :
    ∀ (order : List String) (needed : Int) (cache : CacheSt),
      (raceLoop env minWc order needed cache).valid.length
        = min needed.toNat (order.countP (liveValidB env minWc)) := by
  intro order
  induction order with
  | nil => intro needed cache; simp [raceLoop]
  | cons u rest ih =>
    intro needed cache
    rw [raceLoop]
    by_cases hn : needed ≤ 0
    · rw [if_pos hn]
      simp [Int.toNat_of_nonpos hn]
    · rw [if_neg hn]
      cases hl : env.live u with
      | err =>
        have hb : liveValidB env minWc u = false := by simp [liveValidB, hl]
        rw [ih]
        simp [List.countP_cons, hb]
      | res s md =>
        dsimp only
        by_cases hwc : minWc ≤ liveWcOpt md
        · have hb : liveValidB env minWc u = true := by simp [liveValidB, hl, hwc]
          rw [if_pos hwc]
          simp only [List.length_cons, ih, List.countP_cons, hb, if_pos trivial]
          omega
        · have hb : liveValidB env minWc u = false := by simp [liveValidB, hl, hwc]
          rw [if_neg hwc]
          simp only [ih, List.countP_cons, hb]
          simp

theorem raceLoop_exhaust (env : Env) (minWc : Nat) :
    ∀ (order : List String) (needed : Int) (cache : CacheSt),
      ((order.countP (liveValidB env minWc) : Int) < needed) →
      (raceLoop env minWc order needed cache).all = order.filterMap (liveRes env) := by
  intro order
  induction order with
  | nil => intro needed cache _; simp [raceLoop]
  | cons u rest ih =>
    intro needed cache hcnt
    have hn : ¬ needed ≤ 0 := by
      have : (0 : Int) ≤ (List.countP (liveValidB env minWc) (u :: rest) : Int) := by positivity
      omega
    rw [raceLoop, if_neg hn]
    cases hl : env.live u with
    | err =>
      have hb : liveValidB env minWc u = false := by simp [liveValidB, hl]
      have hr : liveRes env u = none := by simp [liveRes, hl]
      rw [List.filterMap_cons_none hr, ih]
      rw [List.countP_cons, hb] at hcnt
      simpa using hcnt
    | res s md =>
      dsimp only
      have hr : liveRes env u = some ⟨u, s, md, liveWcOpt md, false⟩ := by
        simp [liveRes, hl]
      by_cases hwc : minWc ≤ liveWcOpt md
      · have hb : liveValidB env minWc u = true := by simp [liveValidB, hl, hwc]
        rw [if_pos hwc]
        rw [List.countP_cons, hb] at hcnt
        simp only [if_pos trivial] at hcnt
        rw [List.filterMap_cons_some hr]
        simp only [List.cons.injEq]
        refine ⟨trivial, ih _ _ ?_⟩
        push_cast at hcnt ⊢
        omega
      · have hb : liveValidB env minWc u = false := by simp [liveValidB, hl, hwc]
        rw [if_neg hwc]
        rw [List.countP_cons, hb] at hcnt
        simp only [Bool.false_eq_true, if_false, Nat.add_zero] at hcnt
        rw [List.filterMap_cons_some hr]
        simp only [List.cons.injEq]
        exact ⟨trivial, ih _ _ hcnt⟩

/-- Every result object collected by the race is the live result of its
URL. -/
theorem raceLoop_all_mem (env : Env) (minWc : Nat) :
    ∀ (order : List String) (needed : Int) (cache : CacheSt) (r : FetchResult),
      r ∈ (raceLoop env minWc order needed cache).all →
      r.url ∈ order ∧ liveRes env r.url = some r := by
  intro order
  induction order with
  | nil => intro needed cache r h; simp [raceLoop] at h
  | cons u rest ih =>
    intro needed cache r h
    rw [raceLoop] at h
    by_cases hn : needed ≤ 0
    · rw [if_pos hn] at h; simp at h
    · rw [if_neg hn] at h
      cases hl : env.live u with
      | err =>
        rw [hl] at h
        obtain ⟨h1, h2⟩ := ih _ _ _ h
        exact ⟨List.mem_cons_of_mem _ h1, h2⟩
      | res s md =>
        rw [hl] at h
        dsimp only at h
        by_cases hwc : minWc ≤ liveWcOpt md
        · rw [if_pos hwc] at h
          rcases List.mem_cons.mp h with rfl | h'
          · exact ⟨List.mem_cons_self _ _, by simp [liveRes, hl]⟩
          · obtain ⟨h1, h2⟩ := ih _ _ _ h'
            exact ⟨List.mem_cons_of_mem _ h1, h2⟩
        · rw [if_neg hwc] at h
          rcases List.mem_cons.mp h with rfl | h'
          · exact ⟨List.mem_cons_self _ _, by simp [liveRes, hl]⟩
          · obtain ⟨h1, h2⟩ := ih _ _ _ h'
            exact ⟨List.mem_cons_of_mem _ h1, h2⟩

theorem raceLoop_valid_subset_all (env : Env) (minWc : Nat) :
    ∀ (order : List String) (needed : Int) (cache : CacheSt) (r : FetchResult),
      r ∈ (raceLoop env minWc order needed cache).valid →
      r ∈ (raceLoop env minWc order needed cache).all := by
  intro order
  induction order with
  | nil => intro needed cache r h; simp [raceLoop] at h
  | cons u rest ih =>
    intro needed cache r h
    rw [raceLoop] at h ⊢
    by_cases hn : needed ≤ 0
    · rw [if_pos hn] at h; simp at h
    · rw [if_neg hn] at h ⊢
      cases hl : env.live u with
      | err => rw [hl] at h; exact ih _ _ _ h
      | res s md =>
        rw [hl] at h
        dsimp only at h ⊢
        by_cases hwc : minWc ≤ liveWcOpt md
        · rw [if_pos hwc] at h ⊢
          rcases List.mem_cons.mp h with rfl | h'
          · exact List.mem_cons_self _ _
          · exact List.mem_cons_of_mem _ (ih _ _ _ h')
        · rw [if_neg hwc] at h ⊢
          exact List.mem_cons_of_mem _ (ih _ _ _ h)

theorem storeResult_index_mem (c : CacheSt) (url m : String) :
    url ∈ (storeResult c url m).index := by
  unfold storeResult
  by_cases h : url ∈ c.index <;> simp [h]

theorem storeResult_index_mono (c : CacheSt) (u m x : String) (h : x ∈ c.index) :
    x ∈ (storeResult c u m).index := by
  unfold storeResult
  by_cases hu : u ∈ c.index <;> simp [hu, h]

/-- Once a URL's markdown is in the cache write-log with the value its
live outcome dictates, the rest of the race keeps it there. -/
theorem raceLoop_cache_preserve (env : Env) (minWc : Nat) {url m : String}
    {s : Bool} (hl : env.live url = .res s (some m)) :
    ∀ (order : List String) (needed : Int) (cache : CacheSt),
      lookupA cache.files url = some m ∧ url ∈ cache.index →
      lookupA (raceLoop env minWc order needed cache).cache.files url = some m
      ∧ url ∈ (raceLoop env minWc order needed cache).cache.index := by
  intro order
  induction order with
  | nil => intro needed cache hP; simpa [raceLoop] using hP
  | cons u rest ih =>
    intro needed cache hP
    rw [raceLoop]
    by_cases hn : needed ≤ 0
    · rw [if_pos hn]; exact hP
    · rw [if_neg hn]
      cases hu : env.live u with
      | err => exact ih _ _ hP
      | res s' md =>
        dsimp only
        cases md with
        | none =>
          by_cases hwc : minWc ≤ liveWcOpt none
          · rw [if_pos hwc]; exact ih _ _ hP
          · rw [if_neg hwc]; exact ih _ _ hP
        | some mm =>
          have hP1 : lookupA (if mm = "" then cache else storeResult cache u mm).files url
                = some m
              ∧ url ∈ (if mm = "" then cache else storeResult cache u mm).index := by
            by_cases hmm : mm = ""
            · rw [if_pos hmm]; exact hP
            · rw [if_neg hmm]
              by_cases huu : u = url
              · subst huu
                rw [hu] at hl
                cases hl
                exact ⟨lookupA_insertA_self _ _ _, storeResult_index_mem _ _ _⟩
              · unfold storeResult
                constructor
                · show lookupA (insertA cache.files u mm) url = some m
                  rw [lookupA_insertA_ne _ (fun hh => huu hh.symm)]
                  exact hP.1
                · exact storeResult_index_mono _ _ _ _ hP.2
          by_cases hwc : minWc ≤ liveWcOpt (some mm)
          · rw [if_pos hwc]; exact ih _ _ hP1
          · rw [if_neg hwc]; exact ih _ _ hP1

/-- A processed race completion with nonempty markdown is persisted: the
write-log ends up holding its markdown and its filename is in the
in-memory index. -/
theorem raceLoop_persists (env : Env) (minWc : Nat) {url m : String} {s : Bool}
    (hl : env.live url = .res s (some m)) (hm : m ≠ "") :
    ∀ (order : List String) (needed : Int) (cache : CacheSt),
      (∃ r ∈ (raceLoop env minWc order needed cache).all, r.url = url) →
      lookupA (raceLoop env minWc order needed cache).cache.files url = some m
      ∧ url ∈ (raceLoop env minWc order needed cache).cache.index := by
  intro order
  induction order with
  | nil => intro needed cache h; simp [raceLoop] at h
  | cons u rest ih =>
    intro needed cache h
    rw [raceLoop] at h ⊢
    by_cases hn : needed ≤ 0
    · rw [if_pos hn] at h; simp at h
    · rw [if_neg hn] at h ⊢
      cases hu : env.live u with
      | err => rw [hu] at h; exact ih _ _ h
      | res s' md =>
        rw [hu] at h
        dsimp only at h ⊢
        by_cases huu : u = url
        · subst huu
          rw [hu] at hl
          cases hl
          have hP1 : lookupA (if m = "" then cache else storeResult cache u m).files u
                = some m
              ∧ u ∈ (if m = "" then cache else storeResult cache u m).index := by
            rw [if_neg hm]
            exact ⟨lookupA_insertA_self _ _ _, storeResult_index_mem _ _ _⟩
          by_cases hwc : minWc ≤ liveWcOpt (some m)
          · rw [if_pos hwc]
            exact raceLoop_cache_preserve env minWc hu _ _ _ hP1
          · rw [if_neg hwc]
            exact raceLoop_cache_preserve env minWc hu _ _ _ hP1
        · cases md with
          | none =>
            by_cases hwc : minWc ≤ liveWcOpt none
            · rw [if_pos hwc] at h ⊢
              refine ih _ _ ?_
              obtain ⟨r, hr, hru⟩ := h
              rcases List.mem_cons.mp hr with rfl | hr'
              · exact absurd hru huu
              · exact ⟨r, hr', hru⟩
            · rw [if_neg hwc] at h ⊢
              refine ih _ _ ?_
              obtain ⟨r, hr, hru⟩ := h
              rcases List.mem_cons.mp hr with rfl | hr'
              · exact absurd hru huu
              · exact ⟨r, hr', hru⟩
          | some mm =>
            by_cases hwc : minWc ≤ liveWcOpt (some mm)
            · rw [if_pos hwc] at h ⊢
              refine ih _ _ ?_
              obtain ⟨r, hr, hru⟩ := h
              rcases List.mem_cons.mp hr with rfl | hr'
              · exact absurd hru huu
              · exact ⟨r, hr', hru⟩
            · rw [if_neg hwc] at h ⊢
              refine ih _ _ ?_
              obtain ⟨r, hr, hru⟩ := h
              rcases List.mem_cons.mp hr with rfl | hr'
              · exact absurd hru huu
              · exact ⟨r, hr', hru⟩

/-! ## Counting lemmas -/

theorem length_filterMap_eq_countP {α β : Type} (f : α → Option β) :
    ∀ l : List α, (l.filterMap f).length = l.countP (fun a => (f a).isSome) := by
  intro l
  induction l with
  | nil => rfl
  | cons a rest ih =>
    cases hf : f a with
    | none => simp [List.filterMap_cons_none hf, List.countP_cons, hf, ih]
    | some b => simp [List.filterMap_cons_some hf, List.countP_cons, hf, ih]

theorem countP_yields_split (env : Env) (minWc : Nat) :
    ∀ l : List String,
      l.countP (urlYieldsValidB env minWc)
        = (l.filterMap (cachedValidRes env minWc)).length
          + (l.filter (fun u => !(hasCacheFile env u))).countP (liveValidB env minWc)
          + ((l.filter (fun u => hasCacheFile env u)).filter (cacheFailB env)).countP
              (liveValidB env minWc) := by
  intro l
  induction l with
  | nil => rfl
  | cons u rest ih =>
    rw [List.countP_cons]
    cases hc : env.cached u with
    | none =>
      have h1 : hasCacheFile env u = false := by simp [hasCacheFile, hc]
      have h2 : cachedValidRes env minWc u = none := by simp [cachedValidRes, hc]
      have h3 : urlYieldsValidB env minWc u = liveValidB env minWc u := by
        simp [urlYieldsValidB, hc]
      simp [List.filter_cons, h1, List.filterMap_cons_none h2, List.countP_cons, h3, ih]
      omega
    | some o =>
      have h1 : hasCacheFile env u = true := by simp [hasCacheFile, hc]
      cases o with
      | none =>
        have h2 : cachedValidRes env minWc u = none := by simp [cachedValidRes, hc]
        have h3 : urlYieldsValidB env minWc u = liveValidB env minWc u := by
          simp [urlYieldsValidB, hc]
        have h4 : cacheFailB env u = true := by simp [cacheFailB, hc]
        simp [List.filter_cons, h1, List.filterMap_cons_none h2, h4, List.countP_cons, h3, ih]
        omega
      | some md =>
        have h4 : cacheFailB env u = false := by simp [cacheFailB, hc]
        by_cases hm : minWc ≤ cachedWordCount md
        · have h2 : cachedValidRes env minWc u
              = some ⟨u, true, some md, cachedWordCount md, true⟩ := by
            simp [cachedValidRes, hc, hm]
          have h3 : urlYieldsValidB env minWc u = true := by
            simp [urlYieldsValidB, hc, hm]
          simp [List.filter_cons, h1, List.filterMap_cons_some h2, h4, h3, ih]
          omega
        · have h2 : cachedValidRes env minWc u = none := by
            simp [cachedValidRes, hc, hm]
          have h3 : urlYieldsValidB env minWc u = false := by
            simp [urlYieldsValidB, hc, hm]
          simp [List.filter_cons, h1, List.filterMap_cons_none h2, h4, h3, ih]

theorem countP_resultful_split (env : Env) :
    ∀ l : List String,
      l.countP (resultfulB env)
        = (l.filterMap (cachedHitRes env)).length
          + (l.filter (fun u => !(hasCacheFile env u))).countP
              (fun u => (liveRes env u).isSome)
          + ((l.filter (fun u => hasCacheFile env u)).filter (cacheFailB env)).countP
              (fun u => (liveRes env u).isSome) := by
  intro l
  induction l with
  | nil => rfl
  | cons u rest ih =>
    rw [List.countP_cons]
    cases hc : env.cached u with
    | none =>
      have h1 : hasCacheFile env u = false := by simp [hasCacheFile, hc]
      have h2 : cachedHitRes env u = none := by simp [cachedHitRes, hc]
      have h3 : resultfulB env u = (liveRes env u).isSome := by simp [resultfulB, hc]
      simp [List.filter_cons, h1, List.filterMap_cons_none h2, List.countP_cons, h3, ih]
      omega
    | some o =>
      have h1 : hasCacheFile env u = true := by simp [hasCacheFile, hc]
      cases o with
      | none =>
        have h2 : cachedHitRes env u = none := by simp [cachedHitRes, hc]
        have h3 : resultfulB env u = (liveRes env u).isSome := by simp [resultfulB, hc]
        have h4 : cacheFailB env u = true := by simp [cacheFailB, hc]
        simp [List.filter_cons, h1, List.filterMap_cons_none h2, h4, List.countP_cons, h3, ih]
        omega
      | some md =>
        have h2 : cachedHitRes env u
            = some ⟨u, true, some md, cachedWordCount md, true⟩ := by
          simp [cachedHitRes, hc]
        have h3 : resultfulB env u = true := by simp [resultfulB, hc]
        have h4 : cacheFailB env u = false := by simp [cacheFailB, hc]
        simp [List.filter_cons, h1, List.filterMap_cons_some h2, h4, h3, ih]
        omega

/-! ## Branch lemmas for crawl_fastest -/

theorem crawl_fastest_cached (env : Env) (urls : List String) (count : Int)
    (minWc : Nat) (order : List String)
    (h : ((processCachedUrls env urls count minWc).valid.length : Int) ≥ count) :
    crawl_fastest env urls count minWc order
      = ⟨pyTake count (processCachedUrls env urls count minWc).valid,
         emptyCacheSt, []⟩ := by
  simp only [crawl_fastest]
  rw [if_pos (Or.inl h), if_pos h]

theorem crawl_fastest_nocrawl (env : Env) (urls : List String) (count : Int)
    (minWc : Nat) (order : List String)
    (h1 : ¬ ((processCachedUrls env urls count minWc).valid.length : Int) ≥ count)
    (h2 : (processCachedUrls env urls count minWc).toCrawl = []) :
    crawl_fastest env urls count minWc order
      = ⟨pyTake count (sortDesc (processCachedUrls env urls count minWc).all),
         emptyCacheSt, []⟩ := by
  simp only [crawl_fastest]
  rw [if_pos (Or.inr h2), if_neg h1]

theorem crawl_fastest_race (env : Env) (urls : List String) (count : Int)
    (minWc : Nat) (order : List String)
    (h1 : ¬ ((processCachedUrls env urls count minWc).valid.length : Int) ≥ count)
    (h2 : (processCachedUrls env urls count minWc).toCrawl ≠ []) :
    crawl_fastest env urls count minWc order
      = (if (((processCachedUrls env urls count minWc).valid
              ++ (raceLoop env minWc order
                    (count - (processCachedUrls env urls count minWc).valid.length)
                    emptyCacheSt).valid).length : Int) ≥ count then
          ⟨pyTake count ((processCachedUrls env urls count minWc).valid
              ++ (raceLoop env minWc order
                    (count - (processCachedUrls env urls count minWc).valid.length)
                    emptyCacheSt).valid),
           (raceLoop env minWc order
              (count - (processCachedUrls env urls count minWc).valid.length)
              emptyCacheSt).cache,
           (processCachedUrls env urls count minWc).toCrawl⟩
        else
          ⟨pyTake count (sortDesc ((processCachedUrls env urls count minWc).all
              ++ (raceLoop env minWc order
                    (count - (processCachedUrls env urls count minWc).valid.length)
                    emptyCacheSt).all)),
           (raceLoop env minWc order
              (count - (processCachedUrls env urls count minWc).valid.length)
              emptyCacheSt).cache,
           (processCachedUrls env urls count minWc).toCrawl⟩) := by
  simp only [crawl_fastest]
  rw [if_neg (not_or.mpr ⟨h1, h2⟩)]

/-- C1: with `count = k ≤ |distinct urls|`, (a) if at least `k` fetches
(cached or live) would yield a result meeting the threshold, the call
returns exactly `k` results, all meeting the threshold; (b) if the cached
phase alone yields at least `k` valid results, the call returns the first
`k` valid cached results in discovery order and starts no live fetch. -/
theorem crawl_fastest_returns_k_valid (env : Env) (urls : List String) (k : Nat)
    (minWc : Nat) (order : List String)
    (hperm : order.Perm (processCachedUrls env urls (k : Int) minWc).toCrawl)
    (hk : k ≤ (pyDedup urls).length) :
    ((k ≤ (pyDedup urls).countP (urlYieldsValidB env minWc)) →
      (crawl_fastest env urls (k : Int) minWc order).results.length = k
      ∧ ∀ r ∈ (crawl_fastest env urls (k : Int) minWc order).results,
          minWc ≤ r.word_count)
    ∧ ((k ≤ cachedValidCount env minWc urls) →
      (crawl_fastest env urls (k : Int) minWc order).results
          = ((pyDedup urls).filterMap (cachedValidRes env minWc)).take k
      ∧ (crawl_fastest env urls (k : Int) minWc order).raced = []) := by
  by_cases hk0 : k = 0
  · subst hk0
    have hge : ((processCachedUrls env urls (0 : Int) minWc).valid.length : Int)
        ≥ (0 : Int) := by positivity
    rw [show ((0 : Nat) : Int) = (0 : Int) from rfl] at *
    rw [crawl_fastest_cached env urls 0 minWc order hge]
    refine ⟨fun _ => ⟨?_, ?_⟩, fun _ => ⟨?_, rfl⟩⟩
    · simp [pyTake]
    · intro r hr; simp [pyTake] at hr
    · simp [pyTake]
  · have hk1 : (1 : Int) ≤ (k : Int) := by omega
    obtain ⟨hvchar, hflat⟩ := processCachedUrls_char env urls (k : Int) minWc hk1
    have hpv : (processCachedUrls env urls (k : Int) minWc).valid
        = ((pyDedup urls).filterMap (cachedValidRes env minWc)).take k := by
      simpa using hvchar
    by_cases hcv : k ≤ ((pyDedup urls).filterMap (cachedValidRes env minWc)).length
    · -- the cached phase already provides k valid results
      have hlen : (processCachedUrls env urls (k : Int) minWc).valid.length = k := by
        rw [hpv, List.length_take]
        omega
      have hge : ((processCachedUrls env urls (k : Int) minWc).valid.length : Int)
          ≥ (k : Int) := by rw [hlen]
      rw [crawl_fastest_cached env urls (k : Int) minWc order hge]
      have hres : pyTake (k : Int) (processCachedUrls env urls (k : Int) minWc).valid
          = ((pyDedup urls).filterMap (cachedValidRes env minWc)).take k := by
        rw [pyTake_natCast, List.take_of_length_le (by rw [hlen]), hpv]
      constructor
      · intro _
        constructor
        · show (pyTake (k : Int) _).length = k
          rw [hres, List.length_take]
          omega
        · intro r hr
          rw [show (⟨pyTake (k : Int) (processCachedUrls env urls (k : Int) minWc).valid,
              emptyCacheSt, []⟩ : CrawlOut).results
              = pyTake (k : Int) (processCachedUrls env urls (k : Int) minWc).valid
              from rfl, hres] at hr
          exact (cachedValidRes_mem_wc (List.mem_of_mem_take hr)).1
      · intro _
        exact ⟨hres, rfl⟩
    · -- fewer than k valid cached results
      have hlt : ((processCachedUrls env urls (k : Int) minWc).valid.length : Int)
          < (k : Int) := by
        rw [hpv, List.length_take]
        have : ((pyDedup urls).filterMap (cachedValidRes env minWc)).length < k := by
          omega
        simp
        omega
      constructor
      · intro hyields
        have hp := hflat hlt
        -- glue: total valid-capable count
        have hglue := countP_yields_split env minWc (pyDedup urls)
        have hVlt : ((pyDedup urls).filterMap (cachedValidRes env minWc)).length < k := by
          omega
        have htc : (processCachedUrls env urls (k : Int) minWc).toCrawl
            = (pyDedup urls).filter (fun u => !(hasCacheFile env u))
              ++ ((pyDedup urls).filter (fun u => hasCacheFile env u)).filter
                  (cacheFailB env) := by
          rw [hp]
        have htcne : (processCachedUrls env urls (k : Int) minWc).toCrawl ≠ [] := by
          intro hnil
          rw [htc] at hnil
          have h1 := List.append_eq_nil.mp hnil
          rw [h1.1, h1.2] at hglue
          simp at hglue
          omega
        rw [crawl_fastest_race env urls (k : Int) minWc order (by omega) htcne]
        have hcnt : order.countP (liveValidB env minWc)
            = ((pyDedup urls).filter (fun u => !(hasCacheFile env u))).countP
                (liveValidB env minWc)
              + (((pyDedup urls).filter (fun u => hasCacheFile env u)).filter
                  (cacheFailB env)).countP (liveValidB env minWc) := by
          rw [hperm.countP_eq, htc, List.countP_append]
        have hneeded : (1 : Int) ≤ (k : Int)
            - (processCachedUrls env urls (k : Int) minWc).valid.length := by omega
        have hrlen := raceLoop_valid_length env minWc order
            ((k : Int) - (processCachedUrls env urls (k : Int) minWc).valid.length)
            emptyCacheSt
        have hcntge : (k : Int)
            - (processCachedUrls env urls (k : Int) minWc).valid.length
            ≤ (order.countP (liveValidB env minWc) : Int) := by
          rw [hcnt]
          have hvl : (processCachedUrls env urls (k : Int) minWc).valid.length
              = ((pyDedup urls).filterMap (cachedValidRes env minWc)).length := by
            rw [hpv, List.length_take]
            omega
          rw [hvl]
          push_cast
          omega
        have hrlen' : (raceLoop env minWc order
            ((k : Int) - (processCachedUrls env urls (k : Int) minWc).valid.length)
            emptyCacheSt).valid.length
            = ((k : Int)
                - (processCachedUrls env urls (k : Int) minWc).valid.length).toNat := by
          rw [hrlen]
          omega
        have hv2 : (((processCachedUrls env urls (k : Int) minWc).valid
            ++ (raceLoop env minWc order
                  ((k : Int) - (processCachedUrls env urls (k : Int) minWc).valid.length)
                  emptyCacheSt).valid).length : Int) = (k : Int) := by
          rw [List.length_append, hrlen']
          push_cast
          omega
        rw [if_pos (by omega)]
        constructor
        · show (pyTake (k : Int) _).length = k
          rw [pyTake_natCast, List.length_take]
          have := hv2
          simp at this ⊢
          omega
        · intro r hr
          have hr' : r ∈ ((processCachedUrls env urls (k : Int) minWc).valid
              ++ (raceLoop env minWc order
                    ((k : Int) - (processCachedUrls env urls (k : Int) minWc).valid.length)
                    emptyCacheSt).valid) := by
            rw [show (⟨pyTake (k : Int) _, _, _⟩ : CrawlOut).results = pyTake (k : Int) _
                from rfl, pyTake_natCast] at hr
            exact List.mem_of_mem_take hr
          rcases List.mem_append.mp hr' with hm | hm
          · rw [hpv] at hm
            exact (cachedValidRes_mem_wc (List.mem_of_mem_take hm)).1
          · exact raceLoop_valid_wc env minWc order _ _ r hm
      · intro hcached
        exact absurd hcached (by unfold cachedValidCount at *; omega)

theorem pyTake_subset {α : Type} {c : Int} {l : List α} {x : α}
    (h : x ∈ pyTake c l) : x ∈ l := by
  unfold pyTake at h
  split at h <;> exact List.mem_of_mem_take h

theorem pyTake_length_le {α : Type} (c : Int) (hc : 0 ≤ c) (l : List α) :
    (pyTake c l).length ≤ c.toNat := by
  unfold pyTake
  rw [if_pos hc, List.length_take]
  omega

theorem pyTake_nil {α : Type} (c : Int) : pyTake c ([] : List α) = [] := by
  unfold pyTake
  split <;> simp

/-- C5: edge-case behaviour of `crawl_fastest`: empty URL list gives an
empty result; non-positive `count` gives an empty result; when no URL is
cached and every live fetch fails, it returns at most `count` results all
of word count zero (and never raises: the embedding is total). -/
theorem crawl_fastest_edge_cases (env : Env) (urls : List String) (count : Int)
    (minWc : Nat) (order : List String)
    (hperm : order.Perm (processCachedUrls env urls count minWc).toCrawl) :
    (urls = [] → (crawl_fastest env urls count minWc order).results = [])
    ∧ (count ≤ 0 → (crawl_fastest env urls count minWc order).results = [])
    ∧ ((∀ u, env.cached u = none)
        ∧ (∀ u, env.live u = .err ∨ env.live u = .res false none) →
        (crawl_fastest env urls count minWc order).results.length ≤ count.toNat
        ∧ ∀ r ∈ (crawl_fastest env urls count minWc order).results,
            r.word_count = 0) := by
  have hnonpos : count ≤ 0 → (crawl_fastest env urls count minWc order).results = [] := by
    intro hc
    have hlen := processCachedUrls_nonpos env urls count minWc hc
    have hge : ((processCachedUrls env urls count minWc).valid.length : Int) ≥ count := by
      omega
    rw [crawl_fastest_cached env urls count minWc order hge]
    exact pyTake_nonpos hc hlen
  refine ⟨?_, hnonpos, ?_⟩
  · intro hnil
    subst hnil
    have hp : processCachedUrls env [] count minWc = ⟨[], [], []⟩ := rfl
    by_cases hc : ((processCachedUrls env [] count minWc).valid.length : Int) ≥ count
    · rw [crawl_fastest_cached env [] count minWc order hc, hp]
      exact pyTake_nil count
    · rw [crawl_fastest_nocrawl env [] count minWc order hc (by rw [hp])]
      rw [hp]
      show pyTake count (sortDesc []) = []
      exact pyTake_nil count
  · intro ⟨hcache, hlive⟩
    have hallwc : ∀ (needed : Int) (r : FetchResult),
        r ∈ (raceLoop env minWc order needed emptyCacheSt).all → r.word_count = 0 := by
      intro needed r hr
      obtain ⟨_, hres⟩ := raceLoop_all_mem env minWc order needed emptyCacheSt r hr
      unfold liveRes at hres
      rcases hlive r.url with he | he <;> rw [he] at hres
      · simp at hres
      · dsimp only at hres
        injection hres with h
        rw [← h]
        rfl
    by_cases hc0 : count ≤ 0
    · rw [hnonpos hc0]
      simp
    · have hp : processCachedUrls env urls count minWc = ⟨[], [], pyDedup urls⟩ := by
        simp only [processCachedUrls]
        have h1 : (pyDedup urls).filter (fun u => !(hasCacheFile env u)) = pyDedup urls := by
          apply List.filter_eq_self.mpr
          intro u _
          simp [hasCacheFile, hcache u]
        have h2 : (pyDedup urls).filter (fun u => hasCacheFile env u) = [] := by
          apply List.filter_eq_nil_iff.mpr
          intro u _
          simp [hasCacheFile, hcache u]
        rw [h1, h2]
        rfl
      cases hdd : pyDedup urls with
      | nil =>
        have hc : ¬ ((processCachedUrls env urls count minWc).valid.length : Int) ≥ count := by
          rw [hp]; simp; omega
        rw [crawl_fastest_nocrawl env urls count minWc order hc (by rw [hp, hdd])]
        rw [hp]
        show (pyTake count (sortDesc [])).length ≤ count.toNat
            ∧ ∀ r ∈ pyTake count (sortDesc ([] : List FetchResult)), r.word_count = 0
        rw [show sortDesc [] = [] from rfl, pyTake_nil]
        simp
      | cons d ds =>
        have hc : ¬ ((processCachedUrls env urls count minWc).valid.length : Int) ≥ count := by
          rw [hp]; simp; omega
        have htcne : (processCachedUrls env urls count minWc).toCrawl ≠ [] := by
          rw [hp, hdd]; simp
        rw [crawl_fastest_race env urls count minWc order hc htcne]
        rw [hp]
        dsimp only
        split
        · constructor
          · exact pyTake_length_le count (by omega) _
          · intro r hr
            have hr' := pyTake_subset hr
            rw [List.nil_append] at hr'
            exact hallwc _ r (raceLoop_valid_subset_all env minWc order _ _ r hr')
        · constructor
          · exact pyTake_length_le count (by omega) _
          · intro r hr
            have hr' := sortDesc_mem.mp (pyTake_subset hr)
            rw [List.nil_append] at hr'
            exact hallwc _ r hr'

/-- C2 (amended): when fewer than `count` of the distinct URLs yield a
result meeting the threshold, the call returns `min(count, R)` results,
where `R` counts the distinct URLs that yield any result object at all
(fetches that raise contribute nothing), ordered by descending word count
across both phases. -/
theorem crawl_fastest_fallback (env : Env) (urls : List String) (count : Int)
    (minWc : Nat) (order : List String)
    (hperm : order.Perm (processCachedUrls env urls count minWc).toCrawl)
    (h : (((pyDedup urls).countP (urlYieldsValidB env minWc) : Int)) < count) :
    (crawl_fastest env urls count minWc order).results.length
        = min count.toNat (resultfulCount env urls)
    ∧ DescByWc (crawl_fastest env urls count minWc order).results := by
  have hc1 : (1 : Int) ≤ count := by
    have : (0 : Int) ≤ ((pyDedup urls).countP (urlYieldsValidB env minWc) : Int) := by
      positivity
    omega
  obtain ⟨hvchar, hflat⟩ := processCachedUrls_char env urls count minWc hc1
  have hglue := countP_yields_split env minWc (pyDedup urls)
  have hglue2 := countP_resultful_split env (pyDedup urls)
  have hVlt : (((pyDedup urls).filterMap (cachedValidRes env minWc)).length : Int)
      < count := by omega
  have hlt : ((processCachedUrls env urls count minWc).valid.length : Int) < count := by
    rw [hvchar, List.length_take]
    have h1 : (List.length ((pyDedup urls).filterMap (cachedValidRes env minWc)) : Int)
        < count := hVlt
    simp
    omega
  have hp := hflat hlt
  by_cases htc : (processCachedUrls env urls count minWc).toCrawl = []
  · have hMF : (pyDedup urls).filter (fun u => !(hasCacheFile env u)) = []
        ∧ ((pyDedup urls).filter (fun u => hasCacheFile env u)).filter (cacheFailB env)
            = [] := by
      have := htc
      rw [hp] at this
      exact List.append_eq_nil.mp this
    rw [crawl_fastest_nocrawl env urls count minWc order (by omega) htc]
    have hall : (processCachedUrls env urls count minWc).all
        = (pyDedup urls).filterMap (cachedHitRes env) := by rw [hp]
    have hR : resultfulCount env urls
        = ((pyDedup urls).filterMap (cachedHitRes env)).length := by
      unfold resultfulCount
      rw [hglue2, hMF.1, hMF.2]
      simp
    constructor
    · show (pyTake count (sortDesc _)).length = _
      rw [pyTake, if_pos (by omega), List.length_take, hall, sortDesc_length, hR]
    · show DescByWc (pyTake count (sortDesc _))
      exact pyTake_pairwise (sortDesc_pairwise _)
  · rw [crawl_fastest_race env urls count minWc order (by omega) htc]
    have hcnt : order.countP (liveValidB env minWc)
        = ((pyDedup urls).filter (fun u => !(hasCacheFile env u))).countP
            (liveValidB env minWc)
          + (((pyDedup urls).filter (fun u => hasCacheFile env u)).filter
              (cacheFailB env)).countP (liveValidB env minWc) := by
      rw [hperm.countP_eq, hp]
      exact List.countP_append _ _ _
    have hvl : (processCachedUrls env urls count minWc).valid.length
        = ((pyDedup urls).filterMap (cachedValidRes env minWc)).length := by
      rw [hvchar, List.length_take]
      omega
    have hnostop : ((order.countP (liveValidB env minWc) : Int))
        < count - (processCachedUrls env urls count minWc).valid.length := by
      rw [hcnt, hvl]
      push_cast
      omega
    have hrlen := raceLoop_valid_length env minWc order
        (count - (processCachedUrls env urls count minWc).valid.length) emptyCacheSt
    have hv2lt : ¬ ((((processCachedUrls env urls count minWc).valid
        ++ (raceLoop env minWc order
              (count - (processCachedUrls env urls count minWc).valid.length)
              emptyCacheSt).valid).length : Int) ≥ count) := by
      rw [List.length_append, hrlen]
      push_cast
      omega
    rw [if_neg hv2lt]
    have hrall := raceLoop_exhaust env minWc order
        (count - (processCachedUrls env urls count minWc).valid.length) emptyCacheSt
        hnostop
    have hralllen : (raceLoop env minWc order
        (count - (processCachedUrls env urls count minWc).valid.length)
        emptyCacheSt).all.length
        = ((pyDedup urls).filter (fun u => !(hasCacheFile env u))).countP
            (fun u => (liveRes env u).isSome)
          + (((pyDedup urls).filter (fun u => hasCacheFile env u)).filter
              (cacheFailB env)).countP (fun u => (liveRes env u).isSome) := by
      rw [hrall, length_filterMap_eq_countP, hperm.countP_eq, hp]
      exact List.countP_append _ _ _
    have hall2 : ((processCachedUrls env urls count minWc).all
        ++ (raceLoop env minWc order
              (count - (processCachedUrls env urls count minWc).valid.length)
              emptyCacheSt).all).length = resultfulCount env urls := by
      rw [List.length_append, hralllen, hp]
      show ((pyDedup urls).filterMap (cachedHitRes env)).length + _ = _
      unfold resultfulCount
      rw [hglue2]
      omega
    constructor
    · show (pyTake count (sortDesc _)).length = _
      rw [pyTake, if_pos (by omega), List.length_take, sortDesc_length, hall2]
    · show DescByWc (pyTake count (sortDesc _))
      exact pyTake_pairwise (sortDesc_pairwise _)

/-- C9 (amended): a URL whose cache entry fails to read or parse is
handled like a miss — `_process_cached_url` returns `(none, 0)` instead
of raising — and, provided the cached phase does not return early
(fewer than `count` cache entries are valid), the URL is appended to
`urls_to_crawl`; the failure never aborts the call (the embedding of the
`try/except` bodies is total). -/
theorem cache_load_failure_is_miss (env : Env) (urls : List String) (count : Int)
    (minWc : Nat) (url : String)
    (hfail : env.cached url = some none)
    (hmem : url ∈ pyDedup urls)
    (hnostop : ((cachedValidCount env minWc urls : Int)) < count) :
    processCachedUrlRes env url = (none, 0)
    ∧ url ∈ (processCachedUrls env urls count minWc).toCrawl := by
  constructor
  · simp [processCachedUrlRes, hfail]
  · have hc1 : (1 : Int) ≤ count := by
      have : (0 : Int) ≤ (cachedValidCount env minWc urls : Int) := by positivity
      omega
    obtain ⟨hvchar, hflat⟩ := processCachedUrls_char env urls count minWc hc1
    have hlt : ((processCachedUrls env urls count minWc).valid.length : Int) < count := by
      rw [hvchar, List.length_take]
      unfold cachedValidCount at hnostop
      simp
      omega
    rw [hflat hlt]
    show url ∈ _ ++ _
    refine List.mem_append.mpr (Or.inr ?_)
    refine List.mem_filter.mpr ⟨List.mem_filter.mpr ⟨hmem, ?_⟩, ?_⟩
    · simp [hasCacheFile, hfail]
    · simp [cacheFailB, hfail]

/-- C4 (amended): during the race phase, every completion that is
processed (appears in `all_results`) and carries a nonempty markdown
payload is persisted — its markdown is written to the content cache and
its filename added to the in-memory index — regardless of whether its
word count clears the threshold.  Completions whose markdown is missing
or the empty string are not persisted (see the counterexample to the
original claim). -/
theorem race_persists_nonempty_markdown (env : Env) (minWc : Nat)
    (order : List String) (needed : Int) (cache : CacheSt)
    (url m : String) (s : Bool)
    (hl : env.live url = .res s (some m)) (hm : m ≠ "")
    (hproc : ∃ r ∈ (raceLoop env minWc order needed cache).all, r.url = url) :
    lookupA (raceLoop env minWc order needed cache).cache.files url = some m
    ∧ url ∈ (raceLoop env minWc order needed cache).cache.index :=
  raceLoop_persists env minWc hl hm order needed cache hproc

/-- C10 (amended): the two phases do not use the same metric — the cached
phase scores a result by the character length of the stored markdown,
the live phase by its whitespace-token count; the live metric never
exceeds the cached one, and they differ on any multi-token string. -/
theorem liveWordCount_le_cachedWordCount (m : String) :
    liveWordCount m ≤ cachedWordCount m :=
  tokCountIn_le_length m.data false

/-! ## Worker pool checkout/checkin (`_get_available_crawler`,
`_release_crawler`, lines 157-170)

A small transition system over the two coroutines of the contended
scenario: a *waiter* executing `_get_available_crawler` and a *releaser*
executing `_release_crawler`, sharing `self.lock` and
`self.available_crawlers`.  The waiter's `while not self.available_crawlers:
await asyncio.sleep(0.1)` runs *inside* `async with self.lock`, so the
sleep suspends without releasing the mutex. -/

/-- Program counter of the waiter coroutine inside
`_get_available_crawler`: about to acquire the lock; holding the lock and
testing `self.available_crawlers`; suspended in `asyncio.sleep(0.1)`
(still holding the lock); or returned with a popped crawler. -/
inductive WaiterPC where
  | acquiring : WaiterPC
  | checking : WaiterPC
  | sleeping : WaiterPC
  | gotOne : WaiterPC
deriving DecidableEq

/-- Program counter of the releaser coroutine inside `_release_crawler`:
waiting to acquire the lock; holding the lock about to append; or done
(crawler appended, lock released). -/
inductive ReleaserPC where
  | waitingLock : ReleaserPC
  | appending : ReleaserPC
  | finished : ReleaserPC
deriving DecidableEq

/-- Shared state: `lockBy` records who holds `self.lock` (`some true` =
waiter, `some false` = releaser, `none` = free); `avail` is
`len(self.available_crawlers)`. -/
structure PoolSt where
  lockBy : Option Bool
  avail : Nat
  wpc : WaiterPC
  rpc : ReleaserPC
deriving DecidableEq

/-- Interleaving semantics of the two coroutines.  Each constructor is one
atomic step of the Python between suspension points. -/
inductive PoolStep : PoolSt → PoolSt → Prop where
  | wAcquire (a : Nat) (r : ReleaserPC) :
      PoolStep ⟨none, a, .acquiring, r⟩ ⟨some true, a, .checking, r⟩
  | wCheckEmpty (r : ReleaserPC) :
      PoolStep ⟨some true, 0, .checking, r⟩ ⟨some true, 0, .sleeping, r⟩
  | wWake (a : Nat) (r : ReleaserPC) :
      PoolStep ⟨some true, a, .sleeping, r⟩ ⟨some true, a, .checking, r⟩
  | wPop (a : Nat) (r : ReleaserPC) :
      PoolStep ⟨some true, a + 1, .checking, r⟩ ⟨none, a, .gotOne, r⟩
  | rAcquire (a : Nat) (w : WaiterPC) :
      PoolStep ⟨none, a, w, .waitingLock⟩ ⟨some false, a, w, .appending⟩
  | rAppend (a : Nat) (w : WaiterPC) :
      PoolStep ⟨some false, a, w, .appending⟩ ⟨none, a + 1, w, .finished⟩

/-- The contended configuration: every worker is checked out
(`available_crawlers` empty), the waiter has entered the `while` loop
holding the lock, and a checkin is pending. -/
def deadlockInit : PoolSt := ⟨some true, 0, .checking, .waitingLock⟩

/-- States reachable from the contended configuration. -/
inductive PoolReach : PoolSt → Prop where
  | start : PoolReach deadlockInit
  | next {s s' : PoolSt} : PoolReach s → PoolStep s s' → PoolReach s'

theorem poolReach_invariant : ∀ s : PoolSt, PoolReach s →
    s.lockBy = some true ∧ s.avail = 0
    ∧ (s.wpc = .checking ∨ s.wpc = .sleeping) ∧ s.rpc = .waitingLock := by
  intro s h
  induction h with
  | start => exact ⟨rfl, rfl, Or.inl rfl, rfl⟩
  | next hreach hstep ih =>
    cases hstep with
    | wAcquire a r => simp at ih
    | wCheckEmpty r => exact ⟨rfl, rfl, Or.inr rfl, ih.2.2.2⟩
    | wWake a r => exact ⟨rfl, ih.2.1, Or.inl rfl, ih.2.2.2⟩
    | wPop a r => obtain ⟨_, h0, _, _⟩ := ih; simp at h0
    | rAcquire a w => simp at ih
    | rAppend a w => simp at ih

/-- C3 (code defect): from the contended configuration the checkout never
resolves and the checkin never completes — the waiter polls
`self.available_crawlers` while holding `self.lock`, so
`_release_crawler` can never acquire the lock to append, and the waiter
spins forever. -/
theorem checkout_never_resolves_under_contention :
    ∀ s : PoolSt, PoolReach s → s.wpc ≠ .gotOne ∧ s.rpc ≠ .finished := by
  intro s h
  obtain ⟨_, _, hw, hr⟩ := poolReach_invariant s h
  constructor
  · rcases hw with hw | hw <;> rw [hw] <;> intro hh <;> cases hh
  · rw [hr]; intro hh; cases hh

/-! ## Guaranteed release of the race-phase worker (`crawl_fastest`
lines 246-268)

The race section of `crawl_fastest` is
`crawler = await self._get_available_crawler(); try: ... finally: await
self._release_crawler(crawler)`.  We model the section with the body
abstracted as a fallible computation (`Except`): whatever the body
returns or raises, the `finally` block appends the worker back and runs
exactly once. -/

/-- `self.available_crawlers.pop()`: Python `list.pop()` removes and
returns the *last* element; `none` models the contended case in which
`_get_available_crawler` blocks (see C3). -/
def checkoutLast {W : Type} (avail : List W) : Option (W × List W) :=
  match avail.getLast? with
  | none => none
  | some w => some (w, avail.dropLast)

/-- `_release_crawler` acting on the pool list, instrumented with a
counter of how many times it has run. -/
def releasePool {W : Type} (p : List W × Nat) (w : W) : List W × Nat :=
  (p.1 ++ [w], p.2 + 1)

/-- The race section: check out one worker, run the body (which may
return normally or raise), and in all cases release the worker via the
`finally` block. -/
def racePhaseSection {W E A : Type} (avail : List W) (body : W → Except E A) :
    Option (Except E A × List W × Nat) :=
  match checkoutLast avail with
  | none => none
  | some (w, rest) =>
    let outcome := body w
    some (outcome, releasePool (rest, 0) w)

/-- C8: whenever a worker is available, the race section returns the
body's outcome — normal or exceptional — with the worker released exactly
once and the pool restored to exactly its previous state. -/
theorem race_phase_releases_exactly_once {W E A : Type} (avail : List W)
    (body : W → Except E A) (w : W) (rest : List W)
    (hco : checkoutLast avail = some (w, rest)) :
    racePhaseSection avail body = some (body w, avail, 1) := by
  unfold racePhaseSection
  rw [hco]
  have havail : rest ++ [w] = avail := by
    unfold checkoutLast at hco
    cases hl : avail.getLast? with
    | none => rw [hl] at hco; cases hco
    | some w' =>
      rw [hl] at hco
      cases hco
      have hne : avail ≠ [] := by
        intro h
        rw [h] at hl
        simp at hl
      rw [List.getLast?_eq_getLast _ hne] at hl
      cases hl
      exact List.dropLast_append_getLast hne
  dsimp only
  rw [show releasePool (rest, 0) w = (rest ++ [w], 1) from rfl, havail]

/-! ## The TTL+LRU catalog cache (`recommendation.py`)

`RecommendationService` keeps `_category_products_cache` (a dict from the
composite key `f"{query}_{current}_{page_size}"` to
`(results, timestamp)`), `_cache_access_history` (a list of keys, oldest
first), `_cache_ttl = 60*60*24*10` seconds and `_max_cache_size = 500`.
Time is modelled as a `Nat` passed to each call (the Python calls
`time()`; the model treats one call as atomic in time). -/

/-- The value type cached per key: the `[[productName, sellPriceCur,
str(sellPrice)], ...]` rows built from the catalog response. -/
abbrev CatVal := List (List String)

structure CatCache where
  entries : List (String × CatVal × Nat)
  history : List String
  cacheTtl : Nat
  maxCacheSize : Nat
deriving DecidableEq

/-- The state `__init__` builds (lines 71-78): empty cache, empty access
history, `_cache_ttl = 864000` seconds (10 days), `_max_cache_size =
500`. -/
def initCatCache : CatCache := ⟨[], [], 60 * 60 * 24 * 10, 500⟩

/-- `_clean_expired_cache` (lines 83-97): drop every entry with
`now - timestamp > ttl` and remove each dropped key from the access
history (`list.remove` drops the first occurrence). -/
def cleanExpired (c : CatCache) (now : Nat) : CatCache :=
  let expiredKeys := (c.entries.filter (fun e => c.cacheTtl < now - e.2.2)).map (·.1)
  { c with
    entries := c.entries.filter (fun e => ¬ c.cacheTtl < now - e.2.2)
    history := expiredKeys.foldl (fun h k => h.erase k) c.history }

/-- `_update_cache_access_history` (lines 99-103): move the key to the
most-recently-used end (remove the first occurrence if present, then
append). -/
def updateCacheAccessHistory (c : CatCache) (k : String) : CatCache :=
  { c with history := (c.history.erase k) ++ [k] }

/-- Key-filtered entry list (`del cache[oldest_key]`). -/
def eraseKeyA {α : Type} (l : List (String × α)) (k : String) : List (String × α) :=
  l.filter (fun e => !(e.1 == k))

/-- `_apply_lru_policy` (lines 105-114): pop the oldest key from the
access history and delete it from the cache if present. -/
def applyLruPolicy (c : CatCache) : CatCache :=
  match c.history with
  | [] => c
  | oldest :: rest => { c with history := rest, entries := eraseKeyA c.entries oldest }

/-- The logical hit test of lines 265-270: present and
`now - timestamp < ttl`.  An entry older than the TTL is treated as
absent even when still physically stored. -/
def logicalHit (entries : List (String × CatVal × Nat)) (key : String)
    (now ttl : Nat) : Option CatVal :=
  match lookupA entries key with
  | some (v, ts) => if now - ts < ttl then some v else none
  | none => none

/-- `get_category_products` (lines 253-295).  `fetched` is the rows the
external catalog client would return on this call (the
`ProductClient.combine_search` collaborator).  Returns the rows served,
the new cache state, and whether the call was served from the cache. -/
def get_category_products (c : CatCache) (key : String) (now : Nat)
    (fetched : CatVal) : CatVal × CatCache × Bool :=
  let c1 := cleanExpired c now
  match logicalHit c1.entries key now c1.cacheTtl with
  | some v => (v, updateCacheAccessHistory c1 key, true)
  | none =>
    let c2 := if c1.entries.length ≥ c1.maxCacheSize then applyLruPolicy c1 else c1
    let c3 := { c2 with entries := insertA c2.entries key (fetched, now) }
    (fetched, updateCacheAccessHistory c3 key, false)

/-- Folding a sequence of keys through `get_category_products` at time 0
with a fixed fetched value (the insertion scenarios of the LRU claims). -/
def catInsertSeq (c : CatCache) (keys : List String) (v : CatVal) : CatCache :=
  keys.foldl (fun c k => (get_category_products c k 0 v).2.1) c

/-- Well-formedness of the catalog cache: at most `maxCacheSize` entries;
no duplicate keys; the access history lists exactly the live keys, each
exactly once. -/
def CatWF (c : CatCache) : Prop :=
  c.entries.length ≤ c.maxCacheSize
  ∧ c.history.Nodup
  ∧ (∀ k, k ∈ c.history ↔ k ∈ c.entries.map (·.1))
  ∧ (c.entries.map (·.1)).Nodup

/-! ## Catalog-cache lemmas -/

theorem containsKey_iff_mem_keys {α : Type} :
    ∀ (l : List (String × α)) (k : String),
      containsKey l k = true ↔ k ∈ l.map (·.1) := by
  intro l k
  induction l with
  | nil => simp [containsKey, lookupA]
  | cons e rest ih =>
    obtain ⟨k0, v0⟩ := e
    unfold containsKey lookupA
    by_cases h : k0 = k
    · simp [h]
    · rw [if_neg h]
      unfold containsKey at ih
      rw [ih]
      simp only [List.map_cons, List.mem_cons]
      constructor
      · exact fun hh => Or.inr hh
      · rintro (hh | hh)
        · exact absurd hh.symm h
        · exact hh

theorem lookupA_eq_none_of_not_mem {α : Type} :
    ∀ (l : List (String × α)) (k : String), k ∉ l.map (·.1) → lookupA l k = none := by
  intro l k h
  have := (containsKey_iff_mem_keys l k).not.mpr h
  unfold containsKey at this
  simpa using this

theorem insertA_of_not_mem {α : Type} :
    ∀ (l : List (String × α)) (k : String) (v : α), k ∉ l.map (·.1) →
      insertA l k v = l ++ [(k, v)] := by
  intro l
  induction l with
  | nil => intro k v _; rfl
  | cons e rest ih =>
    obtain ⟨k0, v0⟩ := e
    intro k v h
    simp only [List.map_cons, List.mem_cons] at h
    push_neg at h
    rw [insertA, if_neg (fun hh => h.1 hh.symm), ih k v h.2]
    rfl

theorem keys_insertA_mem {α : Type} :
    ∀ (l : List (String × α)) (k : String) (v : α), k ∈ l.map (·.1) →
      (insertA l k v).map (·.1) = l.map (·.1) := by
  intro l
  induction l with
  | nil => intro k v h; simp at h
  | cons e rest ih =>
    obtain ⟨k0, v0⟩ := e
    intro k v h
    by_cases hk : k0 = k
    · rw [insertA, if_pos hk]; simp
    · rw [insertA, if_neg hk]
      simp only [List.map_cons, List.mem_cons] at h ⊢
      rcases h with h | h
      · exact absurd h.symm hk
      · rw [ih k v h]

theorem length_insertA_mem {α : Type} :
    ∀ (l : List (String × α)) (k : String) (v : α), k ∈ l.map (·.1) →
      (insertA l k v).length = l.length := by
  intro l
  induction l with
  | nil => intro k v h; simp at h
  | cons e rest ih =>
    obtain ⟨k0, v0⟩ := e
    intro k v h
    by_cases hk : k0 = k
    · rw [insertA, if_pos hk]; simp
    · rw [insertA, if_neg hk]
      simp only [List.map_cons, List.mem_cons] at h
      rcases h with h | h
      · exact absurd h.symm hk
      · simp [ih k v h]

theorem keys_eraseKeyA {α : Type} (l : List (String × α)) (k : String) :
    (eraseKeyA l k).map (·.1) = (l.map (·.1)).filter (fun x => !(x == k)) := by
  induction l with
  | nil => rfl
  | cons e rest ih =>
    obtain ⟨k0, v0⟩ := e
    unfold eraseKeyA at ih ⊢
    by_cases h : k0 = k <;> simp [List.filter_cons, h, ih]

theorem mem_keys_eraseKeyA {α : Type} (l : List (String × α)) (k x : String) :
    x ∈ (eraseKeyA l k).map (·.1) ↔ x ∈ l.map (·.1) ∧ x ≠ k := by
  rw [keys_eraseKeyA, List.mem_filter]
  simp

theorem length_filter_ne_of_nodup :
    ∀ (ks : List String) (k : String), ks.Nodup → k ∈ ks →
      (ks.filter (fun x => !(x == k))).length = ks.length - 1 := by
  intro ks
  induction ks with
  | nil => intro k _ h; simp at h
  | cons a rest ih =>
    intro k hnd hmem
    rw [List.nodup_cons] at hnd
    rcases List.mem_cons.mp hmem with rfl | hmem'
    · rw [List.filter_cons]
      simp only [beq_self_eq_true, Bool.not_true, Bool.false_eq_true, if_false]
      rw [List.filter_eq_self.mpr]
      · simp
      · intro x hx
        simp
        intro hxx
        subst hxx
        exact hnd.1 hx
    · have hak : ¬ a = k := by
        intro hh
        subst hh
        exact hnd.1 hmem'
      rw [List.filter_cons, if_pos (by simp [hak]), List.length_cons, ih k hnd.2 hmem']
      have hlen : 1 ≤ rest.length := List.length_pos.mpr (List.ne_nil_of_mem hmem')
      simp only [List.length_cons]
      omega

theorem length_eraseKeyA_of_mem {α : Type} (l : List (String × α)) (k : String)
    (hnd : (l.map (·.1)).Nodup) (hmem : k ∈ l.map (·.1)) :
    (eraseKeyA l k).length = l.length - 1 := by
  have h1 : (eraseKeyA l k).length = ((eraseKeyA l k).map (·.1)).length := by
    rw [List.length_map]
  rw [h1, keys_eraseKeyA, length_filter_ne_of_nodup _ _ hnd hmem, List.length_map]

theorem foldl_erase_mem :
    ∀ (ks h : List String), h.Nodup →
      (ks.foldl (fun acc k => acc.erase k) h).Nodup
      ∧ ∀ x, x ∈ ks.foldl (fun acc k => acc.erase k) h ↔ x ∈ h ∧ x ∉ ks := by
  intro ks
  induction ks with
  | nil => intro h hnd; simpa using hnd
  | cons k rest ih =>
    intro h hnd
    have hnd' : (h.erase k).Nodup := hnd.erase k
    obtain ⟨ih1, ih2⟩ := ih (h.erase k) hnd'
    refine ⟨ih1, fun x => ?_⟩
    rw [List.foldl_cons, ih2 x, List.Nodup.mem_erase_iff hnd]
    simp only [List.mem_cons]
    tauto

theorem nodup_keys_unique {α : Type} :
    ∀ (l : List (String × α)), (l.map (·.1)).Nodup →
      ∀ e ∈ l, ∀ e' ∈ l, e.1 = e'.1 → e = e' := by
  intro l
  induction l with
  | nil => intro _ e he; simp at he
  | cons f rest ih =>
    intro hnd e he e' he' heq
    rw [List.map_cons, List.nodup_cons] at hnd
    rcases List.mem_cons.mp he with rfl | he2 <;>
      rcases List.mem_cons.mp he' with rfl | he2'
    · rfl
    · exact absurd (heq ▸ List.mem_map_of_mem (·.1) he2') hnd.1
    · exact absurd (heq ▸ List.mem_map_of_mem (·.1) he2) hnd.1
    · exact ih hnd.2 e he2 e' he2' heq

theorem cleanExpired_noop (c : CatCache) (now : Nat)
    (h : ∀ e ∈ c.entries, now - e.2.2 ≤ c.cacheTtl) : cleanExpired c now = c := by
  unfold cleanExpired
  have h1 : c.entries.filter (fun e => decide (c.cacheTtl < now - e.2.2)) = [] := by
    apply List.filter_eq_nil_iff.mpr
    intro e he
    have := h e he
    simp
    omega
  have h2 : c.entries.filter (fun e => decide (¬ c.cacheTtl < now - e.2.2)) = c.entries := by
    apply List.filter_eq_self.mpr
    intro e he
    have := h e he
    simp
    omega
  dsimp only
  rw [h1, h2]
  simp

theorem cleanExpired_wf (c : CatCache) (now : Nat) (hwf : CatWF c) :
    CatWF (cleanExpired c now) := by
  obtain ⟨hlen, hnd, hiff, hknd⟩ := hwf
  have hknd' : ((cleanExpired c now).entries.map (·.1)).Nodup := by
    unfold cleanExpired
    exact ((List.filter_sublist _).map _).nodup hknd
  have hfe := foldl_erase_mem
      ((c.entries.filter (fun e => decide (c.cacheTtl < now - e.2.2))).map (·.1))
      c.history hnd
  refine ⟨?_, hfe.1, ?_, hknd'⟩
  · unfold cleanExpired
    calc (c.entries.filter _).length ≤ c.entries.length := List.length_filter_le _ _
      _ ≤ c.maxCacheSize := hlen
  · intro x
    unfold cleanExpired
    dsimp only
    rw [hfe.2 x, hiff x]
    constructor
    · rintro ⟨hx, hnx⟩
      obtain ⟨e, he, heq⟩ := List.mem_map.mp hx
      refine List.mem_map.mpr ⟨e, List.mem_filter.mpr ⟨he, ?_⟩, heq⟩
      simp only [decide_eq_true_eq]
      intro hexp
      exact hnx (List.mem_map.mpr ⟨e, List.mem_filter.mpr ⟨he, by simpa using hexp⟩, heq⟩)
    · intro hx
      obtain ⟨e, hef, heq⟩ := List.mem_map.mp hx
      obtain ⟨he, hkeep⟩ := List.mem_filter.mp hef
      refine ⟨List.mem_map.mpr ⟨e, he, heq⟩, ?_⟩
      intro hexp
      obtain ⟨e', hef', heq'⟩ := List.mem_map.mp hexp
      obtain ⟨he', hexp'⟩ := List.mem_filter.mp hef'
      have : e = e' := nodup_keys_unique c.entries hknd e he e' he' (by rw [heq, heq'])
      subst this
      simp at hkeep hexp'
      omega

theorem updateHistory_wf (c : CatCache) (k : String)
    (hnd : c.history.Nodup)
    (hiff : ∀ x, x ≠ k → (x ∈ c.history ↔ x ∈ c.entries.map (·.1)))
    (hk : k ∈ c.entries.map (·.1)) :
    (updateCacheAccessHistory c k).history.Nodup
    ∧ ∀ x, x ∈ (updateCacheAccessHistory c k).history ↔ x ∈ c.entries.map (·.1) := by
  constructor
  · show ((c.history.erase k) ++ [k]).Nodup
    refine ((hnd.erase k).append (List.nodup_singleton k)) ?_
    intro x hx hk'
    rw [List.mem_singleton] at hk'
    subst hk'
    exact absurd ((List.Nodup.mem_erase_iff hnd).mp hx).1 (by simp)
  · intro x
    show x ∈ (c.history.erase k) ++ [k] ↔ _
    rw [List.mem_append, List.mem_singleton, List.Nodup.mem_erase_iff hnd]
    by_cases hxk : x = k
    · subst hxk
      simp [hk]
    · rw [hiff x hxk]
      simp [hxk]

theorem insert_update_wf (c2 : CatCache) (key : String) (now : Nat) (fetched : CatVal)
    (hnd2 : c2.history.Nodup)
    (hiff2 : ∀ x, x ∈ c2.history ↔ x ∈ c2.entries.map (·.1))
    (hknd2 : (c2.entries.map (·.1)).Nodup)
    (hlenA : c2.entries.length ≤ c2.maxCacheSize)
    (hlenB : key ∉ c2.entries.map (·.1) → c2.entries.length + 1 ≤ c2.maxCacheSize) :
    CatWF (updateCacheAccessHistory
      { c2 with entries := insertA c2.entries key (fetched, now) } key) := by
  have hkey3 : key ∈ (insertA c2.entries key (fetched, now)).map (·.1) := by
    apply (containsKey_iff_mem_keys _ _).mp
    unfold containsKey
    rw [lookupA_insertA_self]
    rfl
  by_cases hmem : key ∈ c2.entries.map (·.1)
  · have hkeys : (insertA c2.entries key (fetched, now)).map (·.1)
        = c2.entries.map (·.1) := keys_insertA_mem _ _ _ hmem
    have hlen3 : (insertA c2.entries key (fetched, now)).length
        = c2.entries.length := length_insertA_mem _ _ _ hmem
    obtain ⟨hnd', hiff'⟩ := updateHistory_wf
        { c2 with entries := insertA c2.entries key (fetched, now) } key hnd2
        (fun x _ => by
          show x ∈ c2.history ↔ _
          rw [hiff2 x, hkeys]) hkey3
    refine ⟨?_, hnd', hiff', ?_⟩
    · show (insertA c2.entries key (fetched, now)).length ≤ c2.maxCacheSize
      rw [hlen3]
      exact hlenA
    · show ((insertA c2.entries key (fetched, now)).map (·.1)).Nodup
      rw [hkeys]
      exact hknd2
  · have hins : insertA c2.entries key (fetched, now)
        = c2.entries ++ [(key, (fetched, now))] := insertA_of_not_mem _ _ _ hmem
    have hkeys : (insertA c2.entries key (fetched, now)).map (·.1)
        = c2.entries.map (·.1) ++ [key] := by rw [hins, List.map_append]; rfl
    obtain ⟨hnd', hiff'⟩ := updateHistory_wf
        { c2 with entries := insertA c2.entries key (fetched, now) } key hnd2
        (fun x hx => by
          show x ∈ c2.history ↔ _
          rw [hiff2 x, hkeys]
          simp [hx]) hkey3
    refine ⟨?_, hnd', hiff', ?_⟩
    · show (insertA c2.entries key (fetched, now)).length ≤ c2.maxCacheSize
      rw [hins, List.length_append]
      have := hlenB hmem
      simp
      omega
    · show ((insertA c2.entries key (fetched, now)).map (·.1)).Nodup
      rw [hkeys]
      exact List.Nodup.append hknd2 (List.nodup_singleton key)
        (fun x hx hk => by rw [List.mem_singleton] at hk; exact hmem (hk ▸ hx))

/-- C6 component: every `get_category_products` call preserves
well-formedness (bounded size, duplicate-free keys, access history
listing exactly the live keys once each), for any positive capacity. -/
theorem get_category_products_wf (c : CatCache) (key : String) (now : Nat)
    (fetched : CatVal) (hmax : 1 ≤ c.maxCacheSize) (hwf : CatWF c) :
    CatWF ((get_category_products c key now fetched).2.1) := by
  obtain ⟨hlen1, hnd1, hiff1, hknd1⟩ := cleanExpired_wf c now hwf
  unfold get_category_products
  dsimp only
  cases hhit : logicalHit (cleanExpired c now).entries key now
      (cleanExpired c now).cacheTtl with
  | some v =>
    dsimp only
    have hkey : key ∈ (cleanExpired c now).entries.map (·.1) := by
      unfold logicalHit at hhit
      cases hl : lookupA (cleanExpired c now).entries key with
      | none => rw [hl] at hhit; simp at hhit
      | some p =>
        apply (containsKey_iff_mem_keys _ _).mp
        unfold containsKey
        rw [hl]
        rfl
    obtain ⟨hnd', hiff'⟩ := updateHistory_wf (cleanExpired c now) key hnd1
        (fun x _ => hiff1 x) hkey
    exact ⟨hlen1, hnd', hiff', hknd1⟩
  | none =>
    dsimp only
    by_cases hfull : (cleanExpired c now).entries.length ≥ (cleanExpired c now).maxCacheSize
    · rw [if_pos hfull]
      have hmax1 : (cleanExpired c now).maxCacheSize = c.maxCacheSize := rfl
      have hene : (cleanExpired c now).entries ≠ [] := by
        intro hne
        rw [hne] at hfull
        simp at hfull
        omega
      obtain ⟨e, he⟩ := List.exists_mem_of_ne_nil _ hene
      have hh : (cleanExpired c now).history ≠ [] := by
        intro hne
        have := (hiff1 e.1).mpr (List.mem_map_of_mem (·.1) he)
        rw [hne] at this
        simp at this
      cases hhist : (cleanExpired c now).history with
      | nil => exact absurd hhist hh
      | cons o hrest =>
        have happ : applyLruPolicy (cleanExpired c now)
            = ⟨eraseKeyA (cleanExpired c now).entries o, hrest,
               (cleanExpired c now).cacheTtl, (cleanExpired c now).maxCacheSize⟩ := by
          unfold applyLruPolicy
          rw [hhist]
        rw [happ]
        have homem : o ∈ (cleanExpired c now).entries.map (·.1) :=
          (hiff1 o).mp (by rw [hhist]; exact List.mem_cons_self _ _)
        have hndc : (cleanExpired c now).history.Nodup := hnd1
        rw [hhist, List.nodup_cons] at hndc
        have hiff2 : ∀ x, x ∈ hrest
            ↔ x ∈ (eraseKeyA (cleanExpired c now).entries o).map (·.1) := by
          intro x
          rw [mem_keys_eraseKeyA]
          constructor
          · intro hx
            have hxo : x ≠ o := fun hh => hndc.1 (hh ▸ hx)
            exact ⟨(hiff1 x).mp (by rw [hhist]; exact List.mem_cons_of_mem _ hx), hxo⟩
          · rintro ⟨hx, hxo⟩
            have := (hiff1 x).mpr hx
            rw [hhist] at this
            rcases List.mem_cons.mp this with rfl | hx'
            · exact absurd rfl hxo
            · exact hx'
        have hknd2 : ((eraseKeyA (cleanExpired c now).entries o).map (·.1)).Nodup := by
          rw [keys_eraseKeyA]
          exact hknd1.filter _
        have hlen2 : (eraseKeyA (cleanExpired c now).entries o).length
            = (cleanExpired c now).entries.length - 1 :=
          length_eraseKeyA_of_mem _ _ hknd1 homem
        have h1le : 1 ≤ (cleanExpired c now).entries.length := by
          cases hce : (cleanExpired c now).entries with
          | nil => exact absurd hce hene
          | cons _ _ => simp
        rw [hmax1] at hfull
        have hlenA2 : (eraseKeyA (cleanExpired c now).entries o).length
            ≤ c.maxCacheSize := by rw [hlen2]; omega
        have hlenB2 : (eraseKeyA (cleanExpired c now).entries o).length + 1
            ≤ c.maxCacheSize := by rw [hlen2]; omega
        exact insert_update_wf _ key now fetched hndc.2 hiff2 hknd2 hlenA2
          (fun _ => hlenB2)
    · rw [if_neg hfull]
      have hmax1 : (cleanExpired c now).maxCacheSize = c.maxCacheSize := rfl
      rw [hmax1] at hfull
      have hlenB : (cleanExpired c now).entries.length + 1 ≤ c.maxCacheSize := by
        omega
      exact insert_update_wf _ key now fetched hnd1 hiff1 hknd1 hlen1
        (fun _ => hlenB)

theorem get_category_products_hit (c : CatCache) (key : String) (now : Nat)
    (fetched v : CatVal)
    (hclean : cleanExpired c now = c)
    (hhit : logicalHit c.entries key now c.cacheTtl = some v) :
    get_category_products c key now fetched
      = (v, ⟨c.entries, (c.history.erase key) ++ [key], c.cacheTtl, c.maxCacheSize⟩,
         true) := by
  unfold get_category_products
  rw [hclean]
  dsimp only
  rw [hhit]
  rfl

theorem get_category_products_miss_space (c : CatCache) (key : String) (now : Nat)
    (fetched : CatVal)
    (hclean : cleanExpired c now = c)
    (hmiss : logicalHit c.entries key now c.cacheTtl = none)
    (hfull : ¬ c.entries.length ≥ c.maxCacheSize) :
    get_category_products c key now fetched
      = (fetched,
         ⟨insertA c.entries key (fetched, now), (c.history.erase key) ++ [key],
          c.cacheTtl, c.maxCacheSize⟩, false) := by
  unfold get_category_products
  rw [hclean]
  dsimp only
  rw [hmiss]
  dsimp only
  rw [if_neg hfull]
  rfl

theorem get_category_products_miss_full (c : CatCache) (key : String) (now : Nat)
    (fetched : CatVal) (o : String) (hrest : List String)
    (hclean : cleanExpired c now = c)
    (hmiss : logicalHit c.entries key now c.cacheTtl = none)
    (hfull : c.entries.length ≥ c.maxCacheSize)
    (hhist : c.history = o :: hrest) :
    get_category_products c key now fetched
      = (fetched,
         ⟨insertA (eraseKeyA c.entries o) key (fetched, now),
          (hrest.erase key) ++ [key], c.cacheTtl, c.maxCacheSize⟩, false) := by
  unfold get_category_products
  rw [hclean]
  dsimp only
  rw [hmiss]
  dsimp only
  rw [if_pos hfull]
  unfold applyLruPolicy
  rw [hhist]
  rfl

theorem lookupA_keysMap_none (v : CatVal) (ks : List String) (k : String)
    (h : k ∉ ks) : lookupA (ks.map (fun x => (x, v, 0))) k = none := by
  apply lookupA_eq_none_of_not_mem
  rw [List.map_map]
  simpa using h

theorem lookupA_keysMap_some (v : CatVal) :
    ∀ (ks : List String) (k : String), k ∈ ks →
      lookupA (ks.map (fun x => (x, v, 0))) k = some (v, 0) := by
  intro ks
  induction ks with
  | nil => intro k h; simp at h
  | cons a rest ih =>
    intro k h
    rw [List.map_cons]
    unfold lookupA
    by_cases ha : a = k
    · rw [if_pos ha]
    · rw [if_neg ha]
      rcases List.mem_cons.mp h with rfl | h'
      · exact absurd rfl ha
      · exact ih k h'

theorem cleanExpired_keysMap_noop (c : CatCache) (v : CatVal) (ks : List String)
    (hent : c.entries = ks.map (fun k => (k, v, 0))) : cleanExpired c 0 = c := by
  apply cleanExpired_noop
  intro e he
  rw [hent] at he
  obtain ⟨x, _, hx⟩ := List.mem_map.mp he
  rw [← hx]
  simp

theorem catInsertSeq_fill (v : CatVal) :
    ∀ (todo done : List String) (c : CatCache),
      c.entries = done.map (fun k => (k, v, 0)) →
      c.history = done →
      (done ++ todo).Nodup →
      done.length + todo.length ≤ c.maxCacheSize →
      catInsertSeq c todo v
        = ⟨(done ++ todo).map (fun k => (k, v, 0)), done ++ todo,
           c.cacheTtl, c.maxCacheSize⟩ := by
  intro todo
  induction todo with
  | nil =>
    intro done c hent hhist _ _
    show c = _
    cases c
    simp_all
  | cons k todo ih =>
    intro done c hent hhist hnd hlen
    have hknotdone : k ∉ done := by
      intro hk
      rw [List.nodup_append] at hnd
      exact hnd.2.2 hk (List.mem_cons_self _ _)
    have hmiss : logicalHit c.entries k 0 c.cacheTtl = none := by
      unfold logicalHit
      rw [hent, lookupA_keysMap_none v done k hknotdone]
    have hfull : ¬ c.entries.length ≥ c.maxCacheSize := by
      rw [hent, List.length_map]
      simp only [List.length_cons] at hlen
      omega
    have hstep := get_category_products_miss_space c k 0 v
      (cleanExpired_keysMap_noop c v done hent) hmiss hfull
    show catInsertSeq (get_category_products c k 0 v).2.1 todo v = _
    rw [hstep]
    dsimp only
    have hins : insertA c.entries k (v, 0) = (done ++ [k]).map (fun x => (x, v, 0)) := by
      rw [hent, insertA_of_not_mem _ _ _ (by rw [List.map_map]; simpa using hknotdone),
        List.map_append]
      rfl
    have hhist' : (c.history.erase k) ++ [k] = done ++ [k] := by
      rw [hhist, List.erase_of_not_mem hknotdone]
    have ih' := ih (done ++ [k])
        ⟨(done ++ [k]).map (fun x => (x, v, 0)), done ++ [k], c.cacheTtl, c.maxCacheSize⟩
        rfl rfl
        (by rwa [List.append_assoc, List.singleton_append])
        (by simp at hlen ⊢
            omega)
    rw [hins, hhist']
    rw [ih']
    rw [List.append_assoc, List.singleton_append]

theorem catInsert_full (v : CatVal) (entKeys : List String) (h1 : String)
    (hrest : List String) (knew : String) (c : CatCache)
    (hent : c.entries = entKeys.map (fun k => (k, v, 0)))
    (hhist : c.history = h1 :: hrest)
    (hknew_ent : knew ∉ entKeys)
    (hknew_hist : knew ∉ hrest)
    (hlen : entKeys.length ≥ c.maxCacheSize) :
    (get_category_products c knew 0 v).2.1
      = ⟨eraseKeyA (entKeys.map (fun k => (k, v, 0))) h1 ++ [(knew, v, 0)],
         hrest ++ [knew], c.cacheTtl, c.maxCacheSize⟩ := by
  have hmiss : logicalHit c.entries knew 0 c.cacheTtl = none := by
    unfold logicalHit
    rw [hent, lookupA_keysMap_none v entKeys knew hknew_ent]
  have hfull : c.entries.length ≥ c.maxCacheSize := by
    rw [hent, List.length_map]
    exact hlen
  have hstep := get_category_products_miss_full c knew 0 v h1 hrest
    (cleanExpired_keysMap_noop c v entKeys hent) hmiss hfull hhist
  rw [hstep]
  dsimp only
  have hkeys : knew ∉ (eraseKeyA c.entries h1).map (·.1) := by
    rw [hent, keys_eraseKeyA]
    intro hmem
    obtain ⟨hm, _⟩ := List.mem_filter.mp hmem
    rw [List.map_map] at hm
    exact hknew_ent (by simpa using hm)
  rw [insertA_of_not_mem _ _ _ hkeys, List.erase_of_not_mem hknew_hist, hent]

/-- C6 scenario: starting from the fresh service state, inserting
`capacity + 1` distinct keys with no intervening reads evicts exactly the
least-recently-inserted key — looking it up afterwards finds nothing. -/
theorem lru_fill_evicts_first (v : CatVal) (k0 : String) (krest : List String)
    (hnd : (k0 :: krest).Nodup) (hlen : krest.length = 500) :
    containsKey (catInsertSeq initCatCache (k0 :: krest) v).entries k0 = false := by
  have hkne : krest ≠ [] := by intro h; rw [h] at hlen; simp at hlen
  have hsplit : krest = krest.dropLast ++ [krest.getLast hkne] :=
    (List.dropLast_append_getLast hkne).symm
  have hdl : krest.dropLast.length = 499 := by
    rw [List.length_dropLast, hlen]
  have hseq : catInsertSeq initCatCache (k0 :: krest) v
      = (get_category_products
          (catInsertSeq initCatCache (k0 :: krest.dropLast) v)
          (krest.getLast hkne) 0 v).2.1 := by
    conv_lhs => rw [hsplit]
    rw [show k0 :: (krest.dropLast ++ [krest.getLast hkne])
        = (k0 :: krest.dropLast) ++ [krest.getLast hkne] from rfl]
    unfold catInsertSeq
    rw [List.foldl_append]
    rfl
  have hndfull : (k0 :: krest).Nodup := hnd
  rw [hsplit] at hndfull
  have hnd' : (k0 :: krest.dropLast).Nodup := by
    have hsub : List.Sublist (k0 :: krest.dropLast)
        (k0 :: (krest.dropLast ++ [krest.getLast hkne])) :=
      List.Sublist.cons₂ k0 (List.sublist_append_left _ _)
    exact hsub.nodup hndfull
  have hfill := catInsertSeq_fill v (k0 :: krest.dropLast) [] initCatCache rfl rfl
    (by simpa using hnd')
    (by simp [initCatCache, hdl])
  rw [List.nil_append] at hfill
  have hglast_ne : krest.getLast hkne ∉ k0 :: krest.dropLast := by
    intro hmem
    rcases List.mem_cons.mp hmem with heq | hmem'
    · rw [List.nodup_cons] at hnd
      exact hnd.1 (heq ▸ List.getLast_mem hkne)
    · have := hndfull
      rw [List.nodup_cons] at this
      have h2 := this.2
      rw [List.nodup_append] at h2
      exact h2.2.2 hmem' (List.mem_singleton_self _)
  have hins := catInsert_full v (k0 :: krest.dropLast) k0 krest.dropLast
    (krest.getLast hkne)
    (catInsertSeq initCatCache (k0 :: krest.dropLast) v)
    (by rw [hfill]) (by rw [hfill]) hglast_ne
    (by intro hmem
        exact hglast_ne (List.mem_cons_of_mem _ hmem))
    (by rw [hfill]
        simp [initCatCache, hdl])
  rw [hseq, hins]
  show containsKey (eraseKeyA _ k0 ++ [(krest.getLast hkne, v, 0)]) k0 = false
  rw [Bool.eq_false_iff]
  intro hck
  have hmem := (containsKey_iff_mem_keys _ _).mp hck
  rw [List.map_append] at hmem
  rcases List.mem_append.mp hmem with hm | hm
  · rw [mem_keys_eraseKeyA] at hm
    exact hm.2 rfl
  · simp at hm
    rw [List.nodup_cons] at hnd
    exact hnd.1 (hm ▸ List.getLast_mem hkne)

/-- C6 scenario: fill the cache to capacity, promote the oldest key with a
`get`, then insert a fresh key: the second-oldest key is evicted and the
promoted key survives. -/
theorem lru_promote_changes_victim (v : CatVal) (k0 k1 knew : String)
    (krest : List String)
    (hnd : (knew :: k0 :: k1 :: krest).Nodup)
    (hlen : krest.length = 498) :
    containsKey ((get_category_products
        ((get_category_products (catInsertSeq initCatCache (k0 :: k1 :: krest) v)
            k0 0 v).2.1) knew 0 v).2.1).entries k1 = false
    ∧ containsKey ((get_category_products
        ((get_category_products (catInsertSeq initCatCache (k0 :: k1 :: krest) v)
            k0 0 v).2.1) knew 0 v).2.1).entries k0 = true := by
  have hndk : (k0 :: k1 :: krest).Nodup := by
    rw [List.nodup_cons] at hnd
    exact hnd.2
  have hknew : knew ∉ k0 :: k1 :: krest := by
    rw [List.nodup_cons] at hnd
    exact hnd.1
  have hfill := catInsertSeq_fill v (k0 :: k1 :: krest) [] initCatCache rfl rfl
    (by simpa using hndk) (by simp [initCatCache, hlen])
  rw [List.nil_append] at hfill
  have hclean := cleanExpired_keysMap_noop
    (catInsertSeq initCatCache (k0 :: k1 :: krest) v) v (k0 :: k1 :: krest)
    (by rw [hfill])
  have hhit : logicalHit (catInsertSeq initCatCache (k0 :: k1 :: krest) v).entries
      k0 0 (catInsertSeq initCatCache (k0 :: k1 :: krest) v).cacheTtl = some v := by
    unfold logicalHit
    rw [show (catInsertSeq initCatCache (k0 :: k1 :: krest) v).entries
        = (k0 :: k1 :: krest).map (fun k => (k, v, 0)) from by rw [hfill]]
    rw [lookupA_keysMap_some v _ k0 (List.mem_cons_self _ _)]
    dsimp only
    rw [if_pos]
    rw [show (catInsertSeq initCatCache (k0 :: k1 :: krest) v).cacheTtl
        = initCatCache.cacheTtl from by rw [hfill]]
    show 0 - 0 < 60 * 60 * 24 * 10
    decide
  have hB := get_category_products_hit
    (catInsertSeq initCatCache (k0 :: k1 :: krest) v) k0 0 v v hclean hhit
  rw [hB]
  dsimp only
  have hherase : (catInsertSeq initCatCache (k0 :: k1 :: krest) v).history.erase k0
      = k1 :: krest := by
    rw [hfill]
    exact List.erase_cons_head k0 (k1 :: krest)
  have hC := catInsert_full v (k0 :: k1 :: krest) k1 (krest ++ [k0]) knew
    ⟨(catInsertSeq initCatCache (k0 :: k1 :: krest) v).entries,
     ((catInsertSeq initCatCache (k0 :: k1 :: krest) v).history.erase k0) ++ [k0],
     (catInsertSeq initCatCache (k0 :: k1 :: krest) v).cacheTtl,
     (catInsertSeq initCatCache (k0 :: k1 :: krest) v).maxCacheSize⟩
    (by rw [hfill]) (by rw [hherase]; rfl) hknew
    (by intro hmem
        rcases List.mem_append.mp hmem with hm | hm
        · exact hknew (List.mem_cons_of_mem _ (List.mem_cons_of_mem _ hm))
        · rw [List.mem_singleton] at hm
          exact hknew (hm ▸ List.mem_cons_self _ _))
    (by rw [hfill]
        simp [initCatCache, hlen])
  rw [hC]
  dsimp only
  have hk1ne : k1 ≠ knew := by
    intro h
    exact hknew (h ▸ List.mem_cons_of_mem _ (List.mem_cons_self _ _))
  have hk0k1 : k0 ≠ k1 := by
    rw [List.nodup_cons] at hndk
    intro h
    exact hndk.1 (h ▸ List.mem_cons_self _ _)
  constructor
  · rw [Bool.eq_false_iff]
    intro hck
    have hmem := (containsKey_iff_mem_keys _ _).mp hck
    rw [List.map_append] at hmem
    rcases List.mem_append.mp hmem with hm | hm
    · rw [mem_keys_eraseKeyA] at hm
      exact hm.2 rfl
    · simp at hm
      exact hk1ne hm
  · apply (containsKey_iff_mem_keys _ _).mpr
    rw [List.map_append]
    refine List.mem_append.mpr (Or.inl ?_)
    rw [mem_keys_eraseKeyA]
    constructor
    · rw [List.map_map]
      simp
    · exact hk0k1

theorem lookupA_some_mem {α : Type} :
    ∀ (l : List (String × α)) (k : String) (p : α),
      lookupA l k = some p → (k, p) ∈ l := by
  intro l
  induction l with
  | nil => intro k p h; simp [lookupA] at h
  | cons e rest ih =>
    obtain ⟨k0, v0⟩ := e
    intro k p h
    unfold lookupA at h
    by_cases hk : k0 = k
    · rw [if_pos hk] at h
      injection h with h
      subst hk
      subst h
      exact List.mem_cons_self _ _
    · rw [if_neg hk] at h
      exact List.mem_cons_of_mem _ (ih k p h)

/-- C6 component: when an insert happens with the cache at capacity and
no entry expired, exactly the least-recently-accessed key (the head of
the access history) is evicted: it is gone afterwards, the new key is
present, every other key is untouched, and the size stays at the
capacity. -/
theorem lru_evicts_exactly_lra (c : CatCache) (key : String) (now : Nat)
    (fetched : CatVal) (hwf : CatWF c) (hmax : 1 ≤ c.maxCacheSize)
    (hnoexp : ∀ e ∈ c.entries, now - e.2.2 ≤ c.cacheTtl)
    (hkey : key ∉ c.entries.map (·.1))
    (hfull : c.entries.length = c.maxCacheSize) :
    ∃ victim hrest, c.history = victim :: hrest
      ∧ victim ∈ c.entries.map (·.1)
      ∧ victim ∉ ((get_category_products c key now fetched).2.1).entries.map (·.1)
      ∧ key ∈ ((get_category_products c key now fetched).2.1).entries.map (·.1)
      ∧ (∀ x, x ≠ victim → x ≠ key →
          (x ∈ ((get_category_products c key now fetched).2.1).entries.map (·.1)
            ↔ x ∈ c.entries.map (·.1)))
      ∧ ((get_category_products c key now fetched).2.1).entries.length
          = c.maxCacheSize := by
  obtain ⟨hlen, hnd, hiff, hknd⟩ := hwf
  have hclean := cleanExpired_noop c now hnoexp
  have hmiss : logicalHit c.entries key now c.cacheTtl = none := by
    unfold logicalHit
    rw [lookupA_eq_none_of_not_mem _ _ hkey]
  have hene : c.entries ≠ [] := by
    intro h
    rw [h] at hfull
    simp at hfull
    omega
  obtain ⟨e, he⟩ := List.exists_mem_of_ne_nil _ hene
  have hhne : c.history ≠ [] := by
    intro h
    have := (hiff e.1).mpr (List.mem_map_of_mem (·.1) he)
    rw [h] at this
    simp at this
  cases hhist : c.history with
  | nil => exact absurd hhist hhne
  | cons victim hrest =>
    refine ⟨victim, hrest, rfl, ?_⟩
    have hvmem : victim ∈ c.entries.map (·.1) :=
      (hiff victim).mp (by rw [hhist]; exact List.mem_cons_self _ _)
    have hvkey : victim ≠ key := by
      intro h
      exact hkey (h ▸ hvmem)
    have hstep := get_category_products_miss_full c key now fetched victim hrest
      hclean hmiss (by omega) hhist
    rw [hstep]
    dsimp only
    have hkey2 : key ∉ (eraseKeyA c.entries victim).map (·.1) := by
      intro hm
      exact hkey ((mem_keys_eraseKeyA _ _ _).mp hm).1
    have hins : insertA (eraseKeyA c.entries victim) key (fetched, now)
        = eraseKeyA c.entries victim ++ [(key, (fetched, now))] :=
      insertA_of_not_mem _ _ _ hkey2
    rw [hins, List.map_append]
    refine ⟨hvmem, ?_, ?_, ?_, ?_⟩
    · intro hm
      rcases List.mem_append.mp hm with hm | hm
      · exact ((mem_keys_eraseKeyA _ _ _).mp hm).2 rfl
      · simp at hm
        exact hvkey hm
    · refine List.mem_append.mpr (Or.inr ?_)
      simp
    · intro x hxv hxk
      constructor
      · intro hm
        rcases List.mem_append.mp hm with hm | hm
        · exact ((mem_keys_eraseKeyA _ _ _).mp hm).1
        · simp at hm
          exact absurd hm hxk
      · intro hm
        exact List.mem_append.mpr
          (Or.inl ((mem_keys_eraseKeyA _ _ _).mpr ⟨hm, hxv⟩))
    · rw [List.length_append, length_eraseKeyA_of_mem _ _ hknd hvmem]
      simp
      omega

/-- C7: a lookup performed more than `ttl` after the key's insertion does
not return the cached value: the pure hit test of lines 265-270 treats
the (possibly still stored) entry as absent, and the full call falls
through to a fresh catalog fetch, returning the fetched rows with the
from-cache flag false. -/
theorem ttl_expired_is_fresh_fetch (c : CatCache) (key : String) (now : Nat)
    (fetched : CatVal) (v : CatVal) (ts : Nat)
    (hknd : (c.entries.map (·.1)).Nodup)
    (hfound : lookupA c.entries key = some (v, ts))
    (hexp : c.cacheTtl < now - ts) :
    logicalHit c.entries key now c.cacheTtl = none
    ∧ (get_category_products c key now fetched).1 = fetched
    ∧ (get_category_products c key now fetched).2.2 = false := by
  have hlh : logicalHit c.entries key now c.cacheTtl = none := by
    unfold logicalHit
    rw [hfound]
    dsimp only
    rw [if_neg (by omega)]
  refine ⟨hlh, ?_⟩
  have hmem : (key, (v, ts)) ∈ c.entries := lookupA_some_mem _ _ _ hfound
  have hclean_absent : lookupA (cleanExpired c now).entries key = none := by
    apply lookupA_eq_none_of_not_mem
    intro hmemk
    unfold cleanExpired at hmemk
    dsimp only at hmemk
    obtain ⟨e, hef, heq⟩ := List.mem_map.mp hmemk
    obtain ⟨he, hkeep⟩ := List.mem_filter.mp hef
    have heq2 : e = (key, (v, ts)) :=
      nodup_keys_unique c.entries hknd e he (key, (v, ts)) hmem (by rw [heq])
    subst heq2
    simp at hkeep
    omega
  have hm1 : logicalHit (cleanExpired c now).entries key now
      (cleanExpired c now).cacheTtl = none := by
    unfold logicalHit
    rw [hclean_absent]
  unfold get_category_products
  dsimp only
  rw [hm1]
  exact ⟨rfl, rfl⟩

/-- C6: the catalog TTL+LRU cache (capacity 500 in the shipped service
state) preserves well-formedness across every `get_category_products`
call — at most `capacity` keys, each live key exactly once in the access
order — and when an insert meets a full cache exactly the
least-recently-accessed key (the access-history head) is evicted;
consequently, filling the fresh service with `capacity + 1` distinct keys
evicts exactly the first key, while promoting the oldest key with a `get`
before the overflow insert shifts the eviction to the second-oldest
key. -/
theorem catalog_cache_lru_claims :
    initCatCache.maxCacheSize = 500
    ∧ (∀ (c : CatCache) (key : String) (now : Nat) (fetched : CatVal),
        CatWF c → 1 ≤ c.maxCacheSize →
        CatWF ((get_category_products c key now fetched).2.1))
    ∧ (∀ (c : CatCache) (key : String) (now : Nat) (fetched : CatVal),
        CatWF c → 1 ≤ c.maxCacheSize →
        (∀ e ∈ c.entries, now - e.2.2 ≤ c.cacheTtl) →
        key ∉ c.entries.map (·.1) →
        c.entries.length = c.maxCacheSize →
        ∃ victim hrest, c.history = victim :: hrest
          ∧ victim ∈ c.entries.map (·.1)
          ∧ victim ∉ ((get_category_products c key now fetched).2.1).entries.map (·.1)
          ∧ key ∈ ((get_category_products c key now fetched).2.1).entries.map (·.1)
          ∧ (∀ x, x ≠ victim → x ≠ key →
              (x ∈ ((get_category_products c key now fetched).2.1).entries.map (·.1)
                ↔ x ∈ c.entries.map (·.1)))
          ∧ ((get_category_products c key now fetched).2.1).entries.length
              = c.maxCacheSize)
    ∧ (∀ (v : CatVal) (k0 : String) (krest : List String),
        (k0 :: krest).Nodup → krest.length = 500 →
        containsKey (catInsertSeq initCatCache (k0 :: krest) v).entries k0 = false)
    ∧ (∀ (v : CatVal) (k0 k1 knew : String) (krest : List String),
        (knew :: k0 :: k1 :: krest).Nodup → krest.length = 498 →
        containsKey ((get_category_products
            ((get_category_products (catInsertSeq initCatCache (k0 :: k1 :: krest) v)
                k0 0 v).2.1) knew 0 v).2.1).entries k1 = false
        ∧ containsKey ((get_category_products
            ((get_category_products (catInsertSeq initCatCache (k0 :: k1 :: krest) v)
                k0 0 v).2.1) knew 0 v).2.1).entries k0 = true) :=
  ⟨rfl,
   fun c key now fetched hwf hmax => get_category_products_wf c key now fetched hmax hwf,
   fun c key now fetched hwf hmax hnoexp hkey hfull =>
     lru_evicts_exactly_lra c key now fetched hwf hmax hnoexp hkey hfull,
   fun v k0 krest hnd hlen => lru_fill_evicts_first v k0 krest hnd hlen,
   fun v k0 k1 knew krest hnd hlen => lru_promote_changes_victim v k0 k1 knew krest hnd hlen⟩

/-! ## Concrete environments for counterexamples and witnesses -/

/-- No URL cached; every live crawl raises. -/
def cexEnvErr : Env := ⟨fun _ => none, fun _ => .err⟩

/-- No URL cached; crawling "a" succeeds with an empty markdown string,
everything else raises. -/
def cexEnvEmptyMd : Env :=
  ⟨fun _ => none,
   fun u => if u = "a" then .res true (some "") else .err⟩

/-- URL "h" has a valid cache entry, "f" has a cache entry that fails to
load, nothing else is cached; every live crawl raises. -/
def cexEnvEarly : Env :=
  ⟨fun u => if u = "h" then some (some "xyz") else if u = "f" then some none else none,
   fun _ => .err⟩

/-- URL "a" has a cache entry with five characters of markdown; live
crawls of "b" succeed with three words of markdown. -/
def witEnv : Env :=
  ⟨fun u => if u = "a" then some (some "hello") else none,
   fun u => if u = "b" then .res true (some "x y z") else .err⟩

/-! ## Counterexamples -/

/-- C2 counterexample: with one distinct URL whose fetch raises,
`crawl_fastest(["a"], 1, 5)` returns zero results, not
`min(count, |U|) = 1` — erroring fetches contribute no result object. -/
theorem crawl_fastest_min_count_counterexample :
    (crawl_fastest cexEnvErr ["a"] 1 5 ["a"]).results.length = 0
    ∧ min (1 : Nat) (pyDedup ["a"]).length = 1 := by decide

/-- C4 counterexample: a successful completion whose markdown is the
empty string is processed (it lands in `all_results` with `success =
true`), yet nothing is persisted: the cache write-log and the in-memory
index stay empty, because line 449 only caches truthy markdown. -/
theorem race_persists_counterexample :
    (raceLoop cexEnvEmptyMd 0 ["a"] 1 emptyCacheSt).all
        = [⟨"a", true, some "", 0, false⟩]
    ∧ (raceLoop cexEnvEmptyMd 0 ["a"] 1 emptyCacheSt).cache = emptyCacheSt := by decide

/-- C9 counterexample: URL "f" has a cache entry that fails to load, but
because "h" already supplies `count = 1` valid cached results, the cached
phase breaks before processing "f", and "f" is never added to
`urls_to_crawl` — unlike a true miss, which the partition pass would have
added up front. -/
theorem cache_failure_early_stop_counterexample :
    cexEnvEarly.cached "f" = some none
    ∧ ¬ ("f" ∈ (processCachedUrls cexEnvEarly ["h", "f"] 1 0).toCrawl) := by decide

/-- C10 counterexample: the cached phase scores "a b" as 3 (characters),
the live phase as 2 (whitespace tokens) — the two phases do not compute
the same metric. -/
theorem cached_live_wordcount_differ :
    ¬ (cachedWordCount "a b" = liveWordCount "a b") := by decide

/-! ## Witnesses -/

theorem crawl_fastest_returns_k_valid_witness :
    (crawl_fastest witEnv ["a"] ((1 : Nat) : Int) 3 []).results.length = 1
    ∧ (crawl_fastest witEnv ["a"] ((1 : Nat) : Int) 3 []).results
        = ((pyDedup ["a"]).filterMap (cachedValidRes witEnv 3)).take 1 := by
  have h := crawl_fastest_returns_k_valid witEnv ["a"] 1 3 [] (by decide) (by decide)
  exact ⟨(h.1 (by decide)).1, (h.2 (by decide)).1⟩

theorem crawl_fastest_fallback_witness :
    (crawl_fastest witEnv ["b"] 1 5 ["b"]).results.length
        = min (1 : Int).toNat (resultfulCount witEnv ["b"])
    ∧ DescByWc (crawl_fastest witEnv ["b"] 1 5 ["b"]).results :=
  crawl_fastest_fallback witEnv ["b"] 1 5 ["b"] (by decide) (by decide)

theorem checkout_never_resolves_witness :
    deadlockInit.wpc ≠ WaiterPC.gotOne ∧ deadlockInit.rpc ≠ ReleaserPC.finished :=
  checkout_never_resolves_under_contention deadlockInit PoolReach.start

theorem race_persists_nonempty_markdown_witness :
    lookupA (raceLoop witEnv 0 ["b"] 1 emptyCacheSt).cache.files "b" = some "x y z"
    ∧ "b" ∈ (raceLoop witEnv 0 ["b"] 1 emptyCacheSt).cache.index :=
  race_persists_nonempty_markdown witEnv 0 ["b"] 1 emptyCacheSt "b" "x y z" true
    (by decide) (by decide) (by decide)

theorem crawl_fastest_edge_cases_witness :
    (crawl_fastest cexEnvErr [] 1 5 []).results = []
    ∧ (crawl_fastest cexEnvErr ["a"] (-1) 5 ["a"]).results = []
    ∧ (crawl_fastest cexEnvErr ["a"] 1 5 ["a"]).results.length ≤ 1 := by
  refine ⟨(crawl_fastest_edge_cases cexEnvErr [] 1 5 [] (by decide)).1 rfl,
          (crawl_fastest_edge_cases cexEnvErr ["a"] (-1) 5 ["a"] (by decide)).2.1
            (by decide), ?_⟩
  have h := (crawl_fastest_edge_cases cexEnvErr ["a"] 1 5 ["a"] (by decide)).2.2
    ⟨fun _ => rfl, fun _ => Or.inl rfl⟩
  exact h.1

theorem cache_load_failure_is_miss_witness :
    processCachedUrlRes cexEnvEarly "f" = (none, 0)
    ∧ "f" ∈ (processCachedUrls cexEnvEarly ["h", "f"] 2 10).toCrawl :=
  cache_load_failure_is_miss cexEnvEarly ["h", "f"] 2 10 "f"
    (by decide) (by decide) (by decide)

theorem race_phase_releases_exactly_once_witness :
    racePhaseSection [0] (fun _ => (Except.ok [] : Except String (List FetchResult)))
        = some (Except.ok [], [0], 1)
    ∧ racePhaseSection [0]
        (fun _ => (Except.error "boom" : Except String (List FetchResult)))
        = some (Except.error "boom", [0], 1) :=
  ⟨race_phase_releases_exactly_once [0] _ 0 [] (by decide),
   race_phase_releases_exactly_once [0] _ 0 [] (by decide)⟩

def witCat : CatCache := ⟨[("k", [["n", "usd", "1"]], 0)], ["k"], 864000, 500⟩

theorem ttl_expired_is_fresh_fetch_witness :
    logicalHit witCat.entries "k" 864001 witCat.cacheTtl = none
    ∧ (get_category_products witCat "k" 864001 [["m", "usd", "2"]]).1
        = [["m", "usd", "2"]]
    ∧ (get_category_products witCat "k" 864001 [["m", "usd", "2"]]).2.2 = false :=
  ttl_expired_is_fresh_fetch witCat "k" 864001 [["m", "usd", "2"]] [["n", "usd", "1"]] 0
    (by decide) (by decide) (by decide)

/-- Distinct string keys for the capacity-sized LRU scenarios. -/
def natKey (n : Nat) : String := String.mk (List.replicate n 'a')

theorem natKey_injective : Function.Injective natKey := by
  intro a b h
  have h2 : List.replicate a 'a' = List.replicate b 'a' := congrArg String.data h
  have h3 := congrArg List.length h2
  simpa using h3

theorem natKeys_shape1 :
    (List.range 501).map natKey
      = natKey 0 :: (List.range 500).map (fun i => natKey (i + 1)) := by
  rw [List.range_succ_eq_map, List.map_cons, List.map_map]
  rfl

theorem natKeys_nodup1 :
    (natKey 0 :: (List.range 500).map (fun i => natKey (i + 1))).Nodup := by
  rw [← natKeys_shape1]
  exact (List.nodup_range 501).map natKey_injective

theorem natKeys_base2_nodup :
    (501 :: 0 :: 1 :: (List.range 498).map (fun i => i + 2)).Nodup := by
  rw [List.nodup_cons, List.nodup_cons, List.nodup_cons]
  refine ⟨?_, ?_, ?_, ?_⟩
  · simp [List.mem_map, List.mem_range]
  · simp [List.mem_map]
  · simp [List.mem_map]
  · exact (List.nodup_range 498).map (fun a b h => by omega)

theorem natKeys_nodup2 :
    (natKey 501 :: natKey 0 :: natKey 1
      :: (List.range 498).map (fun i => natKey (i + 2))).Nodup := by
  have h := natKeys_base2_nodup.map natKey_injective
  rw [List.map_cons, List.map_cons, List.map_cons, List.map_map] at h
  exact h

theorem catWF_initCatCache : CatWF initCatCache := by
  refine ⟨by simp [initCatCache], by simp [initCatCache], ?_, by simp [initCatCache]⟩
  intro k
  simp [initCatCache]

theorem catalog_cache_lru_claims_witness :
    CatWF ((get_category_products initCatCache "k" 0 []).2.1)
    ∧ containsKey ((get_category_products
        (⟨[("a", [], 0)], ["a"], 10, 1⟩ : CatCache) "b" 0 []).2.1).entries "a" = false
    ∧ containsKey (catInsertSeq initCatCache
        (natKey 0 :: (List.range 500).map (fun i => natKey (i + 1))) []).entries
        (natKey 0) = false
    ∧ containsKey ((get_category_products
        ((get_category_products
            (catInsertSeq initCatCache
              (natKey 0 :: natKey 1 :: (List.range 498).map (fun i => natKey (i + 2)))
              [])
            (natKey 0) 0 []).2.1)
        (natKey 501) 0 []).2.1).entries (natKey 1) = false := by
  refine ⟨?_, ?_, ?_, ?_⟩
  · exact catalog_cache_lru_claims.2.1 initCatCache "k" 0 [] catWF_initCatCache
      (by decide)
  · have hwfT : CatWF (⟨[("a", [], 0)], ["a"], 10, 1⟩ : CatCache) := by
      refine ⟨by decide, by decide, ?_, by decide⟩
      intro k
      show k ∈ ["a"] ↔ k ∈ ["a"]
      exact Iff.rfl
    obtain ⟨victim, hrest, hh, _, hgone, _⟩ :=
      catalog_cache_lru_claims.2.2.1 ⟨[("a", [], 0)], ["a"], 10, 1⟩ "b" 0 []
        hwfT (by decide) (by decide) (by decide) (by decide)
    have hh2 : ["a"] = victim :: hrest := hh
    injection hh2 with h1 _
    subst h1
    rw [Bool.eq_false_iff]
    intro hc
    exact hgone ((containsKey_iff_mem_keys _ _).mp hc)
  · exact catalog_cache_lru_claims.2.2.2.1 [] (natKey 0)
      ((List.range 500).map (fun i => natKey (i + 1))) natKeys_nodup1
      (by simp)
  · exact (catalog_cache_lru_claims.2.2.2.2 [] (natKey 0) (natKey 1) (natKey 501)
      ((List.range 498).map (fun i => natKey (i + 2))) natKeys_nodup2
      (by simp)).1
